import Mathlib

/-!
Verification of a transaction-schedule analysis library (`scheduling.py`):
recoverability classifiers (ST / ACA / RC), the reads-from resolver,
conflict-pair detection, the notation parser, and the two lock-scheduling
simulators (C2PL and S2PL).

Operations are shallowly embedded as triples of strings, matching the
Python `namedtuple('Op', ['action', 'transaction', 'object'])` whose fields
are the strings produced by the regex parser.  Python functions that can
raise (`list.index` with a missing element, `dict[key]` with a missing key,
`list.pop` on an empty list) are embedded as `Option`-returning functions,
`none` marking the exception.
-/

/-- One schedule event: `namedtuple('Op', ['action', 'transaction', 'object'])`.
All three fields are strings, as produced by `parse`. -/
structure Op where
  action : String
  transaction : String
  object : String
deriving DecidableEq, Repr

/-- `string_op`: renders an operation back to the input notation
(`c1`, `a2`, `r1(x)`, `w2(y)`). -/
def string_op (op : Op) : String :=
  if op.action = "c" ∨ op.action = "a" then
    op.action ++ op.transaction
  else
    op.action ++ op.transaction ++ "(" ++ op.object ++ ")"

/-- `\d` of the parser's regex, restricted to ASCII as in the inputs. -/
def isDigitChar (c : Char) : Bool :=
  '0' ≤ c && c ≤ '9'

/-- `\w` of the parser's regex, restricted to ASCII as in the inputs. -/
def isWordChar (c : Char) : Bool :=
  c.isAlpha || c.isDigit || c == '_'

/-- The scanning behaviour of
`re.findall(r'(a|c|r|w)(\d)(?:\((\w)\))?', string)`: at each position try to
match an action letter followed by a digit, optionally followed by a
parenthesised word character; on success continue after the match (the
unmatched optional group yields the empty string), on failure advance one
character. -/
def findOps : List Char → List Op
  | c :: d :: rest =>
    if (c = 'a' ∨ c = 'c' ∨ c = 'r' ∨ c = 'w') ∧ isDigitChar d then
      match rest with
      | '(' :: o :: ')' :: rest2 =>
        if isWordChar o then
          Op.mk (String.singleton c) (String.singleton d) (String.singleton o) :: findOps rest2
        else
          Op.mk (String.singleton c) (String.singleton d) "" :: findOps ('(' :: o :: ')' :: rest2)
      | other => Op.mk (String.singleton c) (String.singleton d) "" :: findOps other
    else
      findOps (d :: rest)
  | _ => []
termination_by cs => cs.length
decreasing_by all_goals simp_arith [List.length_cons]

/-- `parse`: `[Op(*op) for op in re.findall(r'(a|c|r|w)(\d)(?:\((\w)\))?', string)]`. -/
def parse (string : String) : List Op :=
  findOps string.data

/-- `aborts`: transactions with an abort event. -/
def aborts (s : List Op) : List String :=
  (s.filter (fun op => op.action == "a")).map Op.transaction

/-- `commits`: transactions with a commit event, in commit order. -/
def commits (s : List Op) : List String :=
  (s.filter (fun op => op.action == "c")).map Op.transaction

/-- The inner double loop of `conf`: for each `op` at position `i`,
pair it with every later conflicting operation. -/
def confAux : List Op → List (Op × Op)
  | [] => []
  | op :: rest =>
    (rest.filter (fun op2 =>
        op.transaction ≠ op2.transaction ∧ op.object = op2.object ∧
          op2.action ∈ (if op.action = "w" then ["r", "w"] else ["w"]))).map
      (fun op2 => (op, op2)) ++ confAux rest

/-- `conf`: conflict pairs among the operations of committed transactions. -/
def conf (s : List Op) : List (Op × Op) :=
  let commited := (s.filter (fun op => op.action == "c")).map Op.transaction
  let ops := s.filter (fun op => op.transaction ∈ commited ∧ op.action ≠ "c")
  confAux ops

/-- The predicate of the `next(...)` generator inside `reads`: a write to the
same object by a different, non-aborted transaction. -/
def wPred (aborted : List String) (op : Op) (w : Op) : Bool :=
  w.action == "w" && !(aborted.contains w.transaction) &&
    w.transaction != op.transaction && w.object == op.object

/-- The loop of `reads` over the reversed schedule: for each read, take the
first later element (of the reversed list, i.e. the nearest earlier element
of the schedule) satisfying `wPred`. -/
def readsAux (aborted : List String) : List Op → List (String × String × String)
  | [] => []
  | op :: rest =>
    (if op.action == "r" then
      match List.find? (wPred aborted op) (op :: rest) with
      | some w => [(op.transaction, op.object, w.transaction)]
      | none => []
     else []) ++ readsAux aborted rest

/-- `reads`: the reads-from relation of a schedule. -/
def reads (s : List Op) : List (String × String × String) :=
  (readsAux (aborts s) s.reverse).reverse

/-- `rc`: every committed reader committed after its writer. -/
def rc (s : List Op) : Bool :=
  let sReads := reads s
  let commited := commits s
  sReads.all (fun tr =>
    if tr.1 ∈ commited then
      decide (tr.2.2 ∈ commited.take (commited.indexOf tr.1))
    else true)

/-- The loop of `aca` over the reads-from triples; `none` models the
`ValueError` of `s.index` on a missing element. -/
def acaAux (s : List Op) : List (String × String × String) → Option Bool
  | [] => some true
  | tr :: rest =>
    match s.indexOf? (Op.mk "r" tr.1 tr.2.1) with
    | none => none
    | some index =>
      if Op.mk "c" tr.2.2 "" ∈ s.take index then acaAux s rest
      else some false

/-- `aca`: every reads-from triple reads data committed before the *first*
occurrence of `r_ti(x)` in the schedule. -/
def aca (s : List Op) : Option Bool :=
  acaAux s (reads s)

/-- The loop of `st` over the enumerated schedule; `none` models the
`ValueError` of `s.index(op_end)` when the terminating event is absent. -/
def stAux (s : List Op) (commited : List String) : List (Nat × Op) → Option Bool
  | [] => some true
  | (i, writeop) :: rest =>
    if writeop.action == "w" then
      match s.indexOf? (Op.mk (if writeop.transaction ∈ commited then "c" else "a")
          writeop.transaction "") with
      | none => none
      | some endIdx =>
        if ((s.take endIdx).drop i).any (fun op =>
            op.transaction != writeop.transaction && op.object == writeop.object) then
          some false
        else stAux s commited rest
    else stAux s commited rest

/-- `st`: no other transaction touches an object between a write to it and
the writer's terminating event. -/
def st (s : List Op) : Option Bool :=
  stAux s (commits s) s.enum

/-- `recoverable`: `st(s) or aca(s) or rc(s)` with Python short-circuiting;
an exception in an evaluated disjunct propagates. -/
def recoverable (s : List Op) : Option Bool :=
  match st s with
  | none => none
  | some true => some true
  | some false =>
    match aca s with
    | none => none
    | some true => some true
    | some false => some (rc s)

/-! ## Specification-side definitions

`readsSpec` and `confSpec` transcribe the specification's wording
(backward scan from each read; ordered index pairs) and are proved equal
to the implementation's `reads` and `conf`. -/

/-- Forward traversal for the reads-from relation as the specification
words it: `seen` is the reversed strict prefix of the schedule, so
`seen.find?` is exactly the backward scan from the read (excluding it)
for the nearest matching write. -/
def readsSpecAux (aborted : List String) : List Op → List Op → List (String × String × String)
  | _, [] => []
  | seen, op :: rest =>
    (if op.action == "r" then
      match List.find? (wPred aborted op) seen with
      | some w => [(op.transaction, op.object, w.transaction)]
      | none => []
     else []) ++ readsSpecAux aborted (op :: seen) rest

/-- The reads-from relation, specification wording. -/
def readsSpec (s : List Op) : List (String × String × String) :=
  readsSpecAux (aborts s) [] s

/-- Conflict pairs as the specification words them: for every position `i`
of the committed-restricted operation list, pair the operation there with
every conflicting operation at a position `j > i`. -/
def confSpec (s : List Op) : List (Op × Op) :=
  let commited := (s.filter (fun op => op.action == "c")).map Op.transaction
  let ops := s.filter (fun op => op.transaction ∈ commited ∧ op.action ≠ "c")
  (ops.enumFrom 0).flatMap (fun p =>
    ((ops.drop (p.1 + 1)).filter (fun op2 =>
        p.2.transaction ≠ op2.transaction ∧ p.2.object = op2.object ∧
          op2.action ∈ (if p.2.action = "w" then ["r", "w"] else ["w"]))).map
      (fun op2 => (p.2, op2)))

/-! ## Concrete schedules used in the theorems -/

/-- The schedule `r1(x) w2(x) c2 r1(x) c1`: transaction 1 reads `x` twice,
only the second read is attributed (to transaction 2). -/
def schedChain : List Op :=
  [Op.mk "r" "1" "x", Op.mk "w" "2" "x", Op.mk "c" "2" "",
   Op.mk "r" "1" "x", Op.mk "c" "1" ""]

/-- The schedule `w1(x) r2(x) r2(x) c1 c2`: the duplicated read makes `conf`
return the same conflict pair twice. -/
def schedDup : List Op :=
  [Op.mk "w" "1" "x", Op.mk "r" "2" "x", Op.mk "r" "2" "x",
   Op.mk "c" "1" "", Op.mk "c" "2" ""]

/-! ## Classifier claims -/

/-- **C1**: the claim asserts `ST(s) ⟹ ACA(s) ⟹ RC(s)` for every schedule
and `recoverable(s) == rc(s)`.  The code violates both parts.  On the
well-formed schedule `r1(x) w2(x) c2 r1(x) c1`, `st` returns `true` but
`aca` returns `false` (because `aca` looks up the *first* occurrence of
`r1(x)` rather than the read that produced the triple), so `ST ⟹ ACA`
fails.  On `w1(x)`, `recoverable` raises `ValueError` (embedded as `none`)
while `rc` returns `true`. -/
theorem recoverable_chain_bug :
    st schedChain = some true ∧ aca schedChain = some false ∧
    recoverable [Op.mk "w" "1" "x"] = none ∧ rc [Op.mk "w" "1" "x"] = true := by
  decide

/-- **C2**: the claim asserts every classifier is total on well-formed
schedules, in particular that `st` must not fail on a schedule containing a
write by a transaction that never commits nor aborts.  On the well-formed
one-event schedule `w1(x)`, `st` evaluates `s.index(Op('a', '1', ''))` on a
list that does not contain that element and raises `ValueError` (embedded
as `none`); `aca` and `rc` do return booleans there. -/
theorem st_totality_bug :
    st [Op.mk "w" "1" "x"] = none ∧
    aca [Op.mk "w" "1" "x"] = some true ∧
    rc [Op.mk "w" "1" "x"] = true := by
  decide

/-- **C8**: the claim asserts `aca s = true` iff every reads-from triple
`(ti, x, tj)` has the commit of `tj` strictly before *the read that
produced the triple*.  On `r1(x) w2(x) c2 r1(x) c1` the only triple is
`(1, x, 2)`, produced by the read at index 3, and `c2` (index 2) precedes
it, so the claim demands `true`; the code instead checks the *first*
occurrence of `r1(x)` (index 0) and returns `false`. -/
theorem aca_first_read_bug :
    aca schedChain = some false ∧
    reads schedChain = [("1", "x", "2")] ∧
    schedChain.get? 3 = some (Op.mk "r" "1" "x") ∧
    Op.mk "c" "2" "" ∈ schedChain.take 3 := by
  decide

/-! ## The reads-from resolver (C6) -/

/-- A read never satisfies its own write predicate. -/
theorem wPred_self_false (ab : List String) (op : Op) (h : op.action = "r") :
    wPred ab op op = false := by
  simp [wPred, h]

/-- Processing the reversed schedule with `readsAux` and reversing the
result agrees with the specification's forward traversal. -/
theorem readsAux_append (ab : List String) (s : List Op) :
    ∀ seen : List Op,
      (readsAux ab (s.reverse ++ seen)).reverse
        = (readsAux ab seen).reverse ++ readsSpecAux ab seen s := by
  induction s with
  | nil => intro seen; simp [readsSpecAux]
  | cons op rest ih =>
    intro seen
    have hrev : (op :: rest).reverse ++ seen = rest.reverse ++ (op :: seen) := by
      simp
    rw [hrev, ih (op :: seen)]
    have hhead : readsAux ab (op :: seen)
        = (if op.action == "r" then
            match List.find? (wPred ab op) seen with
            | some w => [(op.transaction, op.object, w.transaction)]
            | none => []
           else []) ++ readsAux ab seen := by
      by_cases hr : op.action = "r"
      · simp only [readsAux, List.find?_cons_of_neg _
          (by simp [wPred_self_false ab op hr] : ¬ wPred ab op op = true)]
      · simp [readsAux, hr]
    rw [hhead, readsSpecAux]
    by_cases hr : op.action = "r"
    · cases hfind : List.find? (wPred ab op) seen with
      | none => simp [hr, hfind]
      | some w => simp [hr, hfind]
    · simp [hr]

/-- **C6**: `reads` computes exactly the specification's reads-from
relation: one triple per read operation (in schedule order of the reads),
attributing the read to the nearest strictly preceding write to the same
object whose transaction is not aborted anywhere in the schedule and
differs from the reader's; unattributed reads are excluded. -/
theorem reads_eq_readsSpec (s : List Op) : reads s = readsSpec s := by
  have h := readsAux_append (aborts s) s []
  simpa [reads, readsSpec, readsAux] using h

/-! ## Conflict pairs (C7) -/

/-- `confAux` on the suffix `full.drop n` enumerates exactly the ordered
index pairs of `full` starting at `n`, in order of the first index. -/
theorem confAux_eq_enumFrom (full : List Op) :
    ∀ (tail : List Op) (n : Nat), tail = full.drop n →
      confAux tail = (tail.enumFrom n).flatMap (fun p =>
        ((full.drop (p.1 + 1)).filter (fun op2 =>
            p.2.transaction ≠ op2.transaction ∧ p.2.object = op2.object ∧
              op2.action ∈ (if p.2.action = "w" then ["r", "w"] else ["w"]))).map
          (fun op2 => (p.2, op2))) := by
  intro tail
  induction tail with
  | nil => intro n h; simp [confAux]
  | cons op rest ih =>
    intro n h
    have hrest : rest = full.drop (n + 1) :=
      calc rest = (op :: rest).drop 1 := rfl
        _ = (full.drop n).drop 1 := by rw [← h]
        _ = full.drop (n + 1) := by rw [List.drop_drop]
    rw [confAux, List.enumFrom_cons, List.flatMap_cons, ih (n + 1) hrest]
    rw [← hrest]

/-- Every pair produced by `confAux` consists of two operations of the
input list, of different transactions, on the same object, with the second
action in the first action's conflict set. -/
theorem confAux_mem (p : Op × Op) :
    ∀ l : List Op, p ∈ confAux l →
      p.1 ∈ l ∧ p.2 ∈ l ∧ p.1.transaction ≠ p.2.transaction ∧ p.1.object = p.2.object ∧
        p.2.action ∈ (if p.1.action = "w" then ["r", "w"] else ["w"]) := by
  intro l
  induction l with
  | nil => intro h; simp [confAux] at h
  | cons op rest ih =>
    intro hmem
    rw [confAux, List.mem_append] at hmem
    cases hmem with
    | inl h =>
      rcases List.mem_map.1 h with ⟨op2, hop2, hp⟩
      rcases List.mem_filter.1 hop2 with ⟨hop2rest, hcond⟩
      rw [decide_eq_true_iff] at hcond
      subst hp
      exact ⟨List.mem_cons_self _ _, List.mem_cons_of_mem _ hop2rest,
        hcond.1, hcond.2.1, hcond.2.2⟩
    | inr h =>
      obtain ⟨h1, h2, h3, h4, h5⟩ := ih h
      exact ⟨List.mem_cons_of_mem _ h1, List.mem_cons_of_mem _ h2, h3, h4, h5⟩

/-- **C7 (amended)**: `conf s` enumerates, in order of the first
component's position, the ordered pairs of positions of the
committed-restricted operation list whose operations belong to different
transactions, touch the same object, and whose second action lies in the
first action's conflict set (a write conflicts with read and write, any
other action only with write); consequently every returned pair involves
only committed transactions and contains at least one write.  The same
value pair may be returned more than once when the schedule repeats an
operation (see the counterexample). -/
theorem conf_characterization :
    (∀ s, conf s = confSpec s) ∧
    (∀ s p, p ∈ conf s →
      p.1.transaction ∈ commits s ∧ p.2.transaction ∈ commits s ∧
      p.1.transaction ≠ p.2.transaction ∧ p.1.object = p.2.object ∧
      (p.1.action = "w" ∨ p.2.action = "w")) := by
  constructor
  · intro s
    exact confAux_eq_enumFrom _ _ 0 rfl
  · intro s p hp
    obtain ⟨h1, h2, h3, h4, h5⟩ := confAux_mem p _ hp
    rcases List.mem_filter.1 h1 with ⟨-, hc1⟩
    rcases List.mem_filter.1 h2 with ⟨-, hc2⟩
    rw [decide_eq_true_iff] at hc1 hc2
    refine ⟨hc1.1, hc2.1, h3, h4, ?_⟩
    by_cases hw : p.1.action = "w"
    · exact Or.inl hw
    · rw [if_neg hw] at h5
      exact Or.inr (List.mem_singleton.1 h5)

/-- **C7 (counterexample)**: on `w1(x) r2(x) r2(x) c1 c2` (a well-formed
schedule in which transaction 2 reads `x` twice) `conf` returns the value
pair `(w1(x), r2(x))` twice, refuting the claim's "no pair is returned
twice". -/
theorem conf_duplicate_pair_cex :
    conf schedDup = [(Op.mk "w" "1" "x", Op.mk "r" "2" "x"),
                     (Op.mk "w" "1" "x", Op.mk "r" "2" "x")] ∧
    ¬ (conf schedDup).Nodup := by
  decide

/-- Witness for `conf_characterization` at a concrete schedule and pair. -/
theorem conf_characterization_witness :
    conf schedDup = confSpec schedDup ∧
    ((Op.mk "w" "1" "x", Op.mk "r" "2" "x") ∈ conf schedDup ∧
      ("1" : String) ∈ commits schedDup ∧ ("2" : String) ∈ commits schedDup ∧
      ("1" : String) ≠ "2" ∧ ("x" : String) = "x" ∧
      (("w" : String) = "w" ∨ ("r" : String) = "w")) :=
  ⟨conf_characterization.1 schedDup,
    by decide,
    conf_characterization.2 schedDup (Op.mk "w" "1" "x", Op.mk "r" "2" "x") (by decide)⟩

/-! ## The notation parser (C9, C10) -/

/-- A token the parser's regex accepts in full: single-digit transaction,
and for read/write a single word-character object. -/
def isWFToken (op : Op) : Bool :=
  decide (op.transaction.data.length = 1) && op.transaction.data.all isDigitChar &&
    (((op.action == "a" || op.action == "c") && op.object == "") ||
     ((op.action == "r" || op.action == "w") && decide (op.object.data.length = 1) &&
       op.object.data.all isWordChar))

/-- The whitespace-separated input notation for a schedule. -/
def renderSched : List Op → String
  | [] => ""
  | [op] => string_op op
  | op :: rest => string_op op ++ " " ++ renderSched rest

/-- Strings of one character. -/
theorem singleton_mk (c : Char) : String.singleton c = ⟨[c]⟩ := rfl

/-- Scanning skips a leading space. -/
theorem findOps_space (cs : List Char) : findOps (' ' :: cs) = findOps cs := by
  cases cs with
  | nil => simp [findOps]
  | cons c rest => rw [findOps.eq_def]; simp

/-- Scanning a two-character token (`a1`, `c2`) followed by nothing or a
space produces that operation and continues. -/
theorem findOps_tok2 (x d : Char) (cs : List Char)
    (hx : x = 'a' ∨ x = 'c' ∨ x = 'r' ∨ x = 'w') (hd : isDigitChar d = true)
    (hcs : ∀ c2 cs2, cs = c2 :: cs2 → c2 = ' ') :
    findOps (x :: d :: cs) = Op.mk (String.singleton x) (String.singleton d) "" :: findOps cs := by
  cases cs with
  | nil => rw [findOps.eq_def]; simp [hx, hd, findOps]
  | cons c2 cs2 =>
    have h2 : c2 = ' ' := hcs c2 cs2 rfl
    subst h2
    rw [findOps.eq_def]
    simp [hx, hd]

/-- Scanning a five-character token (`r1(x)`, `w2(y)`) produces that
operation and continues. -/
theorem findOps_tok5 (x d o : Char) (cs : List Char)
    (hx : x = 'a' ∨ x = 'c' ∨ x = 'r' ∨ x = 'w') (hd : isDigitChar d = true)
    (ho : isWordChar o = true) :
    findOps (x :: d :: '(' :: o :: ')' :: cs)
      = Op.mk (String.singleton x) (String.singleton d) (String.singleton o) :: findOps cs := by
  rw [findOps.eq_def]
  simp [hx, hd, ho]

/-- Scanning a well-formed token followed by nothing or a space produces
exactly that operation and continues after it. -/
theorem findOps_token (op : Op) (cs : List Char) (hop : isWFToken op = true)
    (hcs : ∀ c2 cs2, cs = c2 :: cs2 → c2 = ' ') :
    findOps ((string_op op).data ++ cs) = op :: findOps cs := by
  rcases op with ⟨a, t, o⟩
  rcases t with ⟨tdata⟩
  simp only [isWFToken, Bool.and_eq_true, Bool.or_eq_true, decide_eq_true_iff,
    beq_iff_eq, List.all_eq_true] at hop
  obtain ⟨⟨hlen, hdig⟩, hcase⟩ := hop
  obtain ⟨d, rfl⟩ : ∃ d, tdata = [d] := List.length_eq_one.1 hlen
  have hd : isDigitChar d = true := hdig d (List.mem_singleton.2 rfl)
  rcases hcase with ⟨hac, hobj⟩ | ⟨⟨hrw, holen⟩, how⟩
  · have hobj' : o = "" := hobj
    subst hobj'
    have hso : string_op (Op.mk a (String.mk [d]) "") = a ++ String.mk [d] := by
      rcases hac with h | h <;> simp [string_op, h]
    rcases hac with h | h <;> subst h <;>
      simp only [hso, String.data_append, List.cons_append, List.nil_append] <;>
      rw [findOps_tok2 _ d cs (by simp) hd hcs] <;>
      rfl
  · rcases o with ⟨odata⟩
    obtain ⟨oc, rfl⟩ : ∃ oc, odata = [oc] := List.length_eq_one.1 holen
    have how : isWordChar oc = true := how oc (List.mem_singleton.2 rfl)
    have hso : string_op (Op.mk a (String.mk [d]) (String.mk [oc]))
        = a ++ String.mk [d] ++ "(" ++ String.mk [oc] ++ ")" := by
      rcases hrw with h | h <;> simp [string_op, h]
    rcases hrw with h | h <;> subst h <;>
      simp only [hso, String.data_append, List.cons_append, List.nil_append,
        List.append_assoc] <;>
      rw [findOps_tok5 _ d oc cs (by simp) hd how] <;>
      rfl

/-- **C9 (amended)**: the parser never fails and never reports an error:
characters that do not participate in a match are silently skipped, so a
malformed token yields a partial (possibly mis-tokenized) operation
sequence rather than a parse failure; and on a whitespace-separated
sequence of tokens the regex accepts in full (single-digit transaction
ids, single-character objects) it returns exactly the operation sequence
in token order. -/
theorem parse_roundtrip (s : List Op) (h : ∀ op ∈ s, isWFToken op = true) :
    parse (renderSched s) = s := by
  induction s with
  | nil => simp [parse, renderSched, findOps]
  | cons op rest ih =>
    cases rest with
    | nil =>
      have htok := findOps_token op [] (h op (List.mem_cons_self _ _))
        (by intro c2 cs2 h'; cases h')
      rw [List.append_nil] at htok
      simp [parse, renderSched, htok, findOps]
    | cons op2 rest2 =>
      have hdata : (renderSched (op :: op2 :: rest2)).data
          = (string_op op).data ++ (' ' :: (renderSched (op2 :: rest2)).data) := by
        show (string_op op ++ " " ++ renderSched (op2 :: rest2)).data = _
        simp [String.data_append]
      rw [parse, hdata,
        findOps_token op _ (h op (List.mem_cons_self _ _))
          (by intro c2 cs2 h'; injection h' with h1 h2; exact h1.symm),
        findOps_space]
      have := ih (fun o ho => h o (List.mem_cons_of_mem _ ho))
      rw [parse] at this
      rw [this]

/-- **C9 (counterexample)**: the input `r12(x)` contains a token outside
the operation grammar (two-digit transaction id); the claim requires a
parse-time error and no partial sequence, but `parse` silently returns the
partial, mis-tokenized sequence `[r1]`. -/
theorem parse_malformed_cex :
    parse "r12(x)" = [Op.mk "r" "1" ""] ∧ parse "r12(x)" ≠ [] := by
  have h1 : parse "r12(x)" = [Op.mk "r" "1" ""] := by
    simp [parse, findOps, isDigitChar, isWordChar, String.singleton]
    all_goals decide
  exact ⟨h1, by rw [h1]; decide⟩

/-- Witness for `parse_roundtrip` on a concrete two-token schedule. -/
theorem parse_roundtrip_witness :
    (∀ op ∈ [Op.mk "r" "1" "x", Op.mk "c" "1" ""], isWFToken op = true) ∧
    parse (renderSched [Op.mk "r" "1" "x", Op.mk "c" "1" ""])
      = [Op.mk "r" "1" "x", Op.mk "c" "1" ""] :=
  ⟨by decide, parse_roundtrip [Op.mk "r" "1" "x", Op.mk "c" "1" ""] (by decide)⟩

/-- **C10**: every operation the parser produces has a one-character
(digit) transaction string and an at-most-one-character object string, so
the accepted grammar is narrower than the data model; on `r12(x)` the
extra digit is not parsed as part of the transaction id: the token is
mis-tokenized as `r1` (with no object) and the rest is skipped. -/
theorem parse_single_digit :
    (∀ (cs : List Char) (op : Op), op ∈ findOps cs →
      op.transaction.data.length = 1 ∧ op.transaction.data.all isDigitChar = true ∧
        op.object.data.length ≤ 1) ∧
    parse "r12(x)" = [Op.mk "r" "1" ""] := by
  constructor
  · intro cs
    induction cs using findOps.induct with
    | case1 c d h o rest2 ho ih =>
      intro op hmem
      rw [findOps_tok5 c d o rest2 h.1 h.2 ho] at hmem
      rcases List.mem_cons.1 hmem with rfl | hmem2
      · exact ⟨rfl, by simpa using h.2, by simp [singleton_mk]⟩
      · exact ih op hmem2
    | case2 c d h o rest2 ho ih =>
      intro op hmem
      rw [show findOps (c :: d :: '(' :: o :: ')' :: rest2)
            = Op.mk (String.singleton c) (String.singleton d) ""
                :: findOps ('(' :: o :: ')' :: rest2) from by
          rw [findOps.eq_def]; simp [h, ho]] at hmem
      rcases List.mem_cons.1 hmem with rfl | hmem2
      · exact ⟨rfl, by simpa using h.2, by simp⟩
      · exact ih op hmem2
    | case3 c d h other hnp ih =>
      intro op hmem
      rw [show findOps (c :: d :: other)
            = Op.mk (String.singleton c) (String.singleton d) "" :: findOps other from by
          rw [findOps.eq_def]
          simp only [h, and_self, if_true]] at hmem
      rcases List.mem_cons.1 hmem with rfl | hmem2
      · exact ⟨rfl, by simpa using h.2, by simp⟩
      · exact ih op hmem2
    | case4 c d rest h ih =>
      intro op hmem
      rw [show findOps (c :: d :: rest) = findOps (d :: rest) from by
          rw [findOps.eq_def]; simp [h]] at hmem
      exact ih op hmem
    | case5 x h =>
      intro op hmem
      match x, h with
      | [], _ =>
        rw [show findOps [] = [] from by simp [findOps]] at hmem
        cases hmem
      | [c], _ =>
        rw [show findOps [c] = [] from by simp [findOps]] at hmem
        cases hmem
      | c :: d :: rest, h => exact (h c d rest rfl).elim
  · simp [parse, findOps, isDigitChar, isWordChar, String.singleton]
    all_goals decide

/-- Witness for `parse_single_digit` at the concrete token r1(x). -/
theorem parse_single_digit_witness :
    (Op.mk "r" "1" "x").transaction.data.length = 1 ∧
    (Op.mk "r" "1" "x").transaction.data.all isDigitChar = true ∧
    (Op.mk "r" "1" "x").object.data.length ≤ 1 :=
  parse_single_digit.1 ['r', '1', '(', 'x', ')'] (Op.mk "r" "1" "x") (by
    rw [findOps_tok5 'r' '1' 'x' [] (by decide) (by decide) (by decide)]
    simp [singleton_mk])

/-! ## Locking primitives and the S2PL simulator -/

/-- `lockable`: a non-access is always lockable; an access is blocked iff
some *other* transaction holds a lock on the same object, unless both the
request and the held lock are reads. -/
def lockable (op : Op) (locked : List (String × List Op)) : Bool :=
  if op.action = "r" ∨ op.action = "w" then
    locked.all (fun p =>
      p.1 == op.transaction ||
        p.2.all (fun l => !(l.object == op.object && !(op.action == "r" && l.action == "r"))))
  else true

/-- `lock`: `Op(a + 'l', t, o)`. -/
def lock (op : Op) : Op :=
  Op.mk (op.action ++ "l") op.transaction op.object

/-- `unlock`: `Op(a + 'u', t, o)`. -/
def unlock (op : Op) : Op :=
  Op.mk (op.action ++ "u") op.transaction op.object

/-- `actions`: the read/write operations of one transaction, in order. -/
def actions (s : List Op) (t : String) : List Op :=
  s.filter (fun op => op.transaction == t && (op.action == "r" || op.action == "w"))

/-- Lookup in the lock table (a Python dict keyed by transaction id);
`defaultdict(list)` yields `[]` for a missing key. -/
def getLocks (locked : List (String × List Op)) (t : String) : List Op :=
  match locked.find? (fun p => p.1 == t) with
  | some p => p.2
  | none => []

/-- Assignment `locked[t] = ls` on the lock table. -/
def setLocks (locked : List (String × List Op)) (t : String) (ls : List Op) :
    List (String × List Op) :=
  if locked.any (fun p => p.1 == t) then
    locked.map (fun p => if p.1 == t then (t, ls) else p)
  else locked ++ [(t, ls)]

/-- The membership test `t in locked`. -/
def containsKey (locked : List (String × List Op)) (t : String) : Bool :=
  locked.any (fun p => p.1 == t)

/-- Result of `s2pl`: the Python function returns `(True, ns)` on success
and `(False, ns, delayed)` on deadlock. -/
inductive S2plResult where
  | success (ns : List Op)
  | deadlock (ns : List Op) (delayed : List Op)
deriving DecidableEq, Repr

/-- The `while remaining` loop of `s2pl`. -/
def s2plLoop (strict : Bool) (ns delayed : List Op) (locked : List (String × List Op))
    (remaining : List Op) : S2plResult :=
  match remaining with
  | [] => if delayed.isEmpty then .success ns else .deadlock ns delayed
  | op :: rest =>
    if !(actions delayed op.transaction).isEmpty || !(lockable op locked) then
      s2plLoop strict ns (delayed ++ [op]) locked rest
    else if op.action == "a" || op.action == "c" then
      s2plLoop strict (ns ++ (getLocks locked op.transaction).map unlock ++ [op]) []
        (setLocks locked op.transaction []) (delayed ++ rest)
    else if !strict && op.action == "r" then
      s2plLoop strict (ns ++ [lock op, op, unlock op]) [] locked (delayed ++ rest)
    else
      s2plLoop strict (ns ++ [lock op, op]) []
        (setLocks locked op.transaction (getLocks locked op.transaction ++ [op]))
        (delayed ++ rest)
termination_by (remaining.length + delayed.length, remaining.length)
decreasing_by
  all_goals
    simp_wf
    rw [Prod.lex_def]
    simp only [List.length_append, List.length_cons, List.length_nil]
    omega

/-- `s2pl`: the (strong/strict) two-phase-locking simulator. -/
def s2pl (s : List Op) (strict : Bool) : S2plResult :=
  s2plLoop strict [] [] [] s

/-- The schedule `w1(x) w2(y) r1(y) r2(x)`: each transaction holds a lock
the other needs. -/
def schedDead : List Op :=
  [Op.mk "w" "1" "x", Op.mk "w" "2" "y", Op.mk "r" "1" "y", Op.mk "r" "2" "x"]

/-- A deadlock result always carries the non-empty stuck delay queue with
which the work queue was exhausted. -/
theorem s2plLoop_deadlock_nonempty (strict : Bool) (ns delayed : List Op)
    (locked : List (String × List Op)) (remaining : List Op) :
    ∀ ns2 d2, s2plLoop strict ns delayed locked remaining = .deadlock ns2 d2 → d2 ≠ [] := by
  induction ns, delayed, locked, remaining using s2plLoop.induct strict with
  | case1 ns delayed locked hd =>
    intro ns2 d2 h
    rw [s2plLoop, if_pos hd] at h
    cases h
  | case2 ns delayed locked hd =>
    intro ns2 d2 h
    rw [s2plLoop, if_neg hd] at h
    cases h
    intro hnil
    exact hd (by simp [hnil])
  | case3 ns delayed locked op rest hcond ih =>
    intro ns2 d2 h
    rw [s2plLoop, if_pos hcond] at h
    exact ih ns2 d2 h
  | case4 ns delayed locked op rest hcond hterm ih =>
    intro ns2 d2 h
    rw [s2plLoop, if_neg hcond, if_pos hterm] at h
    exact ih ns2 d2 h
  | case5 ns delayed locked op rest hcond hterm hread ih =>
    intro ns2 d2 h
    rw [s2plLoop, if_neg hcond, if_neg hterm, if_pos hread] at h
    exact ih ns2 d2 h
  | case6 ns delayed locked op rest hcond hterm hread ih =>
    intro ns2 d2 h
    rw [s2plLoop, if_neg hcond, if_neg hterm, if_neg hread] at h
    exact ih ns2 d2 h

/-- **C3**: `s2pl` returns a failure result only with the (non-empty) delay
queue on which the work queue was exhausted, together with the partial
event sequence produced so far; a success result carries only the complete
event sequence (there is no remaining delay queue).  On the schedule
`w1(x) w2(y) r1(y) r2(x)` with `strict := false` it reports deadlock, with
partial output `wl1(x) w1(x) wl2(y) w2(y)` and stuck queue `r1(y) r2(x)`. -/
theorem s2pl_deadlock_result :
    (∀ strict ns delayed locked remaining ns2 d2,
      s2plLoop strict ns delayed locked remaining = S2plResult.deadlock ns2 d2 → d2 ≠ []) ∧
    s2pl schedDead false = S2plResult.deadlock
      [Op.mk "wl" "1" "x", Op.mk "w" "1" "x", Op.mk "wl" "2" "y", Op.mk "w" "2" "y"]
      [Op.mk "r" "1" "y", Op.mk "r" "2" "x"] := by
  constructor
  · intro strict ns delayed locked remaining
    exact s2plLoop_deadlock_nonempty strict ns delayed locked remaining
  · simp [s2pl, s2plLoop, schedDead, actions, lockable, getLocks, setLocks, lock, unlock]

/-- Witness for `s2pl_deadlock_result`: the stuck delay queue of the
concrete deadlocking run is indeed non-empty. -/
theorem s2pl_deadlock_result_witness :
    ([Op.mk "r" "1" "y", Op.mk "r" "2" "x"] : List Op) ≠ [] :=
  s2pl_deadlock_result.1 false [] [] [] schedDead
    [Op.mk "wl" "1" "x", Op.mk "w" "1" "x", Op.mk "wl" "2" "y", Op.mk "w" "2" "y"]
    [Op.mk "r" "1" "y", Op.mk "r" "2" "x"] s2pl_deadlock_result.2

/-! ## Unlock placement in the S2PL output (C5) -/

/-- The event sequence component of an `s2pl` result (both success and
deadlock results carry the produced sequence). -/
def nsOf : S2plResult → List Op
  | .success ns => ns
  | .deadlock ns _ => ns

/-- Every read access (`action = "r"`) is immediately followed by its own
unlock event. -/
def readsFollowed : List Op → Bool
  | [] => true
  | [op] => !(op.action == "r")
  | op :: op2 :: rest =>
    (!(op.action == "r") || op2 == unlock op) && readsFollowed (op2 :: rest)

/-- The last event, if any, is not a read access. -/
def lastOk (l : List Op) : Bool :=
  match l.getLast? with
  | some x => !(x.action == "r")
  | none => true

/-- From here on, only unlock events of transaction `t` occur until `t`'s
terminating event is reached. -/
def termAfterUnlocks (t : String) : List Op → Bool
  | [] => false
  | op :: rest =>
    if (op.action == "ru" || op.action == "wu") && op.transaction == t then
      termAfterUnlocks t rest
    else
      (op.action == "a" || op.action == "c") && op.transaction == t

/-- Every write-unlock event is part of its transaction's release block:
only unlocks of the same transaction separate it from the terminating
event that follows. -/
def wuAdj : List Op → Bool
  | [] => true
  | op :: rest =>
    (!(op.action == "wu") || termAfterUnlocks op.transaction rest) && wuAdj rest

/-- Every unlock event (read or write) is part of its transaction's release
block immediately preceding the terminating event. -/
def uAdj : List Op → Bool
  | [] => true
  | op :: rest =>
    (!(op.action == "ru" || op.action == "wu") || termAfterUnlocks op.transaction rest)
      && uAdj rest

/-- Data-model actions only. -/
def poolWF (l : List Op) : Prop :=
  ∀ op ∈ l, op.action = "r" ∨ op.action = "w" ∨ op.action = "a" ∨ op.action = "c"

/-- Held locks belong to their key's transaction and are read/write
accesses. -/
def lockedWF (locked : List (String × List Op)) : Prop :=
  ∀ p ∈ locked, ∀ l ∈ p.2, l.transaction = p.1 ∧ (l.action = "r" ∨ l.action = "w")

/-- A list without read accesses trivially satisfies `readsFollowed`. -/
theorem readsFollowed_of_no_read (l : List Op) (h : ∀ x ∈ l, x.action ≠ "r") :
    readsFollowed l = true := by
  induction l with
  | nil => rfl
  | cons op rest ih =>
    have hop : op.action ≠ "r" := h op (List.mem_cons_self _ _)
    cases rest with
    | nil => simp [readsFollowed, hop]
    | cons op2 rest2 =>
      rw [readsFollowed]
      simp only [Bool.and_eq_true]
      refine ⟨by simp [hop], ih (fun x hx => h x (List.mem_cons_of_mem _ hx))⟩

/-- `readsFollowed` is stable under appending another block, provided the
first part does not end in a read access. -/
theorem readsFollowed_append (l b : List Op) (hl : readsFollowed l = true)
    (hlast : lastOk l = true) (hb : readsFollowed b = true) :
    readsFollowed (l ++ b) = true := by
  induction l with
  | nil => simpa using hb
  | cons op rest ih =>
    cases rest with
    | nil =>
      have hop : ¬ op.action = "r" := by
        simp only [lastOk, List.getLast?_singleton] at hlast
        simpa using hlast
      cases b with
      | nil => simpa using hl
      | cons b1 brest =>
        rw [List.cons_append, List.nil_append, readsFollowed]
        simp [hop, hb]
    | cons op2 rest2 =>
      rw [readsFollowed] at hl
      simp only [Bool.and_eq_true] at hl
      have hlast2 : lastOk (op2 :: rest2) = true := by
        simpa [lastOk, List.getLast?_cons_cons] using hlast
      have := ih hl.2 hlast2
      rw [List.cons_append, List.cons_append, readsFollowed]
      simp only [Bool.and_eq_true]
      rw [List.cons_append] at this
      exact ⟨by simpa using hl.1, this⟩

/-- A satisfied release-block condition survives appending further events. -/
theorem termAfterUnlocks_append (t : String) (l b : List Op)
    (h : termAfterUnlocks t l = true) : termAfterUnlocks t (l ++ b) = true := by
  induction l with
  | nil => cases h
  | cons op rest ih =>
    rw [termAfterUnlocks] at h
    rw [List.cons_append, termAfterUnlocks]
    by_cases hc : ((op.action == "ru" || op.action == "wu") && op.transaction == t) = true
    · rw [if_pos hc] at h
      rw [if_pos hc]
      exact ih h
    · rw [if_neg hc] at h
      rw [if_neg hc]
      exact h

/-- `wuAdj` holds of a concatenation when it holds of both parts. -/
theorem wuAdj_append (l b : List Op) (hl : wuAdj l = true) (hb : wuAdj b = true) :
    wuAdj (l ++ b) = true := by
  induction l with
  | nil => simpa using hb
  | cons op rest ih =>
    rw [wuAdj] at hl
    simp only [Bool.and_eq_true] at hl
    rw [List.cons_append, wuAdj]
    simp only [Bool.and_eq_true]
    refine ⟨?_, ih hl.2⟩
    rcases Bool.or_eq_true_iff.1 hl.1 with h | h
    · exact Bool.or_eq_true_iff.2 (Or.inl h)
    · exact Bool.or_eq_true_iff.2 (Or.inr (termAfterUnlocks_append _ _ _ h))

/-- `uAdj` holds of a concatenation when it holds of both parts. -/
theorem uAdj_append (l b : List Op) (hl : uAdj l = true) (hb : uAdj b = true) :
    uAdj (l ++ b) = true := by
  induction l with
  | nil => simpa using hb
  | cons op rest ih =>
    rw [uAdj] at hl
    simp only [Bool.and_eq_true] at hl
    rw [List.cons_append, uAdj]
    simp only [Bool.and_eq_true]
    refine ⟨?_, ih hl.2⟩
    rcases Bool.or_eq_true_iff.1 hl.1 with h | h
    · exact Bool.or_eq_true_iff.2 (Or.inl h)
    · exact Bool.or_eq_true_iff.2 (Or.inr (termAfterUnlocks_append _ _ _ h))

/-- Concrete lock/unlock action strings. -/
theorem str_ru : ("r" : String) ++ "u" = "ru" := rfl

/-- Concrete lock/unlock action strings. -/
theorem str_wu : ("w" : String) ++ "u" = "wu" := rfl

/-- Concrete lock/unlock action strings. -/
theorem str_rl : ("r" : String) ++ "l" = "rl" := rfl

/-- Concrete lock/unlock action strings. -/
theorem str_wl : ("w" : String) ++ "l" = "wl" := rfl

/-- The release block emitted at a terminating event: the unlocks of the
held locks followed by the terminator satisfy all adjacency predicates. -/
theorem releaseBlock_ok (t : String) (ls : List Op) (tm : Op)
    (hls : ∀ l ∈ ls, l.transaction = t ∧ (l.action = "r" ∨ l.action = "w"))
    (hterm : tm.action = "a" ∨ tm.action = "c") (htt : tm.transaction = t) :
    termAfterUnlocks t (ls.map unlock ++ [tm]) = true ∧
    wuAdj (ls.map unlock ++ [tm]) = true ∧
    uAdj (ls.map unlock ++ [tm]) = true ∧
    (∀ x ∈ ls.map unlock ++ [tm], x.action ≠ "r") := by
  induction ls with
  | nil =>
    refine ⟨?_, ?_, ?_, ?_⟩
    · rcases hterm with h | h <;> simp [termAfterUnlocks, h, htt]
    · rcases hterm with h | h <;> simp [wuAdj, h]
    · rcases hterm with h | h <;> simp [uAdj, h]
    · intro x hx
      rcases hterm with h | h <;>
        simp only [List.map_nil, List.nil_append, List.mem_singleton] at hx <;>
        simp [hx, h]
  | cons l ls ih =>
    obtain ⟨hlt, hla⟩ := hls l (List.mem_cons_self _ _)
    have ihr := ih (fun x hx => hls x (List.mem_cons_of_mem _ hx))
    have hstep : termAfterUnlocks t (unlock l :: (ls.map unlock ++ [tm]))
        = termAfterUnlocks t (ls.map unlock ++ [tm]) := by
      rw [termAfterUnlocks]
      rcases hla with h | h <;>
        simp [unlock, h, hlt, str_ru, str_wu]
    refine ⟨?_, ?_, ?_, ?_⟩
    · rw [List.map_cons, List.cons_append, hstep]
      exact ihr.1
    · rw [List.map_cons, List.cons_append, wuAdj]
      simp only [Bool.and_eq_true]
      refine ⟨?_, ihr.2.1⟩
      rcases hla with h | h
      · simp [unlock, h, str_ru]
      · simp only [unlock, h, str_wu]
        rw [show (⟨"wu", l.transaction, l.object⟩ : Op).transaction = t from hlt]
        simp [ihr.1]
    · rw [List.map_cons, List.cons_append, uAdj]
      simp only [Bool.and_eq_true]
      refine ⟨?_, ihr.2.2.1⟩
      rcases hla with h | h
      · simp only [unlock, h, str_ru]
        rw [show (⟨"ru", l.transaction, l.object⟩ : Op).transaction = t from hlt]
        simp [ihr.1]
      · simp only [unlock, h, str_wu]
        rw [show (⟨"wu", l.transaction, l.object⟩ : Op).transaction = t from hlt]
        simp [ihr.1]
    · intro x hx
      rcases List.mem_cons.1 hx with rfl | hx2
      · rcases hla with h | h <;> simp [unlock, h, str_ru, str_wu]
      · exact ihr.2.2.2 x hx2

/-- Locks retrieved from a well-formed table belong to the requested
transaction. -/
theorem getLocks_wf (locked : List (String × List Op)) (t : String) (h : lockedWF locked) :
    ∀ l ∈ getLocks locked t, l.transaction = t ∧ (l.action = "r" ∨ l.action = "w") := by
  intro l hl
  unfold getLocks at hl
  cases hfind : locked.find? (fun p => p.1 == t) with
  | none => rw [hfind] at hl; cases hl
  | some p =>
    rw [hfind] at hl
    have hmem := List.mem_of_find?_eq_some hfind
    have hkey : p.1 = t := by simpa using List.find?_some hfind
    have := h p hmem l hl
    exact ⟨hkey ▸ this.1, this.2⟩

/-- Assignment preserves well-formedness of the lock table. -/
theorem setLocks_wf (locked : List (String × List Op)) (t : String) (ls : List Op)
    (h : lockedWF locked)
    (hls : ∀ l ∈ ls, l.transaction = t ∧ (l.action = "r" ∨ l.action = "w")) :
    lockedWF (setLocks locked t ls) := by
  intro p hp l hl
  unfold setLocks at hp
  by_cases hc : locked.any (fun p => p.1 == t) = true
  · rw [if_pos hc] at hp
    rcases List.mem_map.1 hp with ⟨q, hq, hpq⟩
    by_cases hqt : (q.1 == t) = true
    · rw [if_pos hqt] at hpq
      subst hpq
      exact hls l hl
    · rw [if_neg hqt] at hpq
      subst hpq
      exact h q hq l hl
  · rw [if_neg hc] at hp
    rcases List.mem_append.1 hp with hp2 | hp2
    · exact h p hp2 l hl
    · rcases List.mem_singleton.1 hp2 with rfl
      exact hls l hl

/-- `poolWF` is closed under append. -/
theorem poolWF_append (l1 l2 : List Op) (h1 : poolWF l1) (h2 : poolWF l2) :
    poolWF (l1 ++ l2) := by
  intro op hop
  rcases List.mem_append.1 hop with h | h
  · exact h1 op h
  · exact h2 op h

/-- Adjacency invariant of the `s2pl` loop for `strict = false`: reads are
unlocked immediately after the access, and write unlocks appear only in
release blocks immediately preceding the terminating event. -/
theorem s2plLoop_adjacency_false (ns delayed : List Op)
    (locked : List (String × List Op)) (remaining : List Op) :
    readsFollowed ns = true → lastOk ns = true → wuAdj ns = true →
    lockedWF locked → poolWF remaining → poolWF delayed →
    readsFollowed (nsOf (s2plLoop false ns delayed locked remaining)) = true ∧
    lastOk (nsOf (s2plLoop false ns delayed locked remaining)) = true ∧
    wuAdj (nsOf (s2plLoop false ns delayed locked remaining)) = true := by
  induction ns, delayed, locked, remaining using s2plLoop.induct false with
  | case1 ns delayed locked hd =>
    intro hrf hlast hwu _ _ _
    rw [s2plLoop, if_pos hd]
    exact ⟨hrf, hlast, hwu⟩
  | case2 ns delayed locked hd =>
    intro hrf hlast hwu _ _ _
    rw [s2plLoop, if_neg hd]
    exact ⟨hrf, hlast, hwu⟩
  | case3 ns delayed locked op rest hcond ih =>
    intro hrf hlast hwu hlk hrem hdel
    rw [s2plLoop, if_pos hcond]
    have hop := hrem op (List.mem_cons_self _ _)
    refine ih hrf hlast hwu hlk (fun x hx => hrem x (List.mem_cons_of_mem _ hx))
      (poolWF_append _ _ hdel ?_)
    intro x hx
    rcases List.mem_singleton.1 hx with rfl
    exact hop
  | case4 ns delayed locked op rest hcond hterm ih =>
    intro hrf hlast hwu hlk hrem hdel
    rw [s2plLoop, if_neg hcond, if_pos hterm]
    have hterm' : op.action = "a" ∨ op.action = "c" := by
      simpa using hterm
    have hblock := releaseBlock_ok op.transaction (getLocks locked op.transaction) op
      (getLocks_wf locked op.transaction hlk) hterm' rfl
    have hrf' : readsFollowed
        (ns ++ (List.map unlock (getLocks locked op.transaction) ++ [op])) = true :=
      readsFollowed_append _ _ hrf hlast (readsFollowed_of_no_read _ hblock.2.2.2)
    have hwu' : wuAdj (ns ++ (List.map unlock (getLocks locked op.transaction) ++ [op]))
        = true :=
      wuAdj_append _ _ hwu hblock.2.1
    rw [← List.append_assoc] at hrf' hwu'
    have hlast' : lastOk (ns ++ List.map unlock (getLocks locked op.transaction) ++ [op])
        = true := by
      rw [lastOk, List.getLast?_concat]
      rcases hterm' with h | h <;> simp [h]
    refine ih hrf' hlast' hwu'
      (setLocks_wf _ _ _ hlk (by intro l hl; cases hl))
      (poolWF_append _ _ hdel (fun x hx => hrem x (List.mem_cons_of_mem _ hx)))
      (by intro x hx; cases hx)
  | case5 ns delayed locked op rest hcond hterm hread ih =>
    intro hrf hlast hwu hlk hrem hdel
    rw [s2plLoop, if_neg hcond, if_neg hterm, if_pos hread]
    have hr : op.action = "r" := by simpa using hread
    have hb : readsFollowed [lock op, op, unlock op] = true := by
      simp [readsFollowed, lock, unlock, hr, str_rl, str_ru]
    have hlast' : lastOk (ns ++ [lock op, op, unlock op]) = true := by
      rw [lastOk, show ns ++ [lock op, op, unlock op]
          = (ns ++ [lock op, op]) ++ [unlock op] from by simp, List.getLast?_concat]
      simp [unlock, hr, str_ru]
    have hwub : wuAdj [lock op, op, unlock op] = true := by
      simp [wuAdj, lock, unlock, hr, str_rl, str_ru]
    refine ih (readsFollowed_append _ _ hrf hlast hb) hlast'
      (wuAdj_append _ _ hwu hwub) hlk
      (poolWF_append _ _ hdel (fun x hx => hrem x (List.mem_cons_of_mem _ hx)))
      (by intro x hx; cases hx)
  | case6 ns delayed locked op rest hcond hterm hread ih =>
    intro hrf hlast hwu hlk hrem hdel
    rw [s2plLoop, if_neg hcond, if_neg hterm, if_neg hread]
    have hna : ¬ (op.action = "a" ∨ op.action = "c") := by
      simpa using hterm
    have hnr : op.action ≠ "r" := by simpa using hread
    have hw : op.action = "w" := by
      rcases hrem op (List.mem_cons_self _ _) with h | h | h | h
      · exact absurd h hnr
      · exact h
      · exact absurd (Or.inl h) hna
      · exact absurd (Or.inr h) hna
    have hb : readsFollowed [lock op, op] = true := by
      simp [readsFollowed, lock, hw, str_wl]
    have hlast' : lastOk (ns ++ [lock op, op]) = true := by
      rw [lastOk, show ns ++ [lock op, op] = (ns ++ [lock op]) ++ [op] from by simp,
        List.getLast?_concat]
      simp [hw]
    have hwub : wuAdj [lock op, op] = true := by
      simp [wuAdj, lock, hw, str_wl]
    refine ih (readsFollowed_append _ _ hrf hlast hb) hlast'
      (wuAdj_append _ _ hwu hwub)
      (setLocks_wf _ _ _ hlk ?_)
      (poolWF_append _ _ hdel (fun x hx => hrem x (List.mem_cons_of_mem _ hx)))
      (by intro x hx; cases hx)
    intro l hl
    rcases List.mem_append.1 hl with h | h
    · exact getLocks_wf locked op.transaction hlk l h
    · rcases List.mem_singleton.1 h with rfl
      exact ⟨rfl, Or.inr hw⟩

/-- Adjacency invariant of the `s2pl` loop for `strict = true`: every
unlock appears only in a release block immediately preceding the
terminating event. -/
theorem s2plLoop_adjacency_true (ns delayed : List Op)
    (locked : List (String × List Op)) (remaining : List Op) :
    uAdj ns = true → lockedWF locked → poolWF remaining → poolWF delayed →
    uAdj (nsOf (s2plLoop true ns delayed locked remaining)) = true := by
  induction ns, delayed, locked, remaining using s2plLoop.induct true with
  | case1 ns delayed locked hd =>
    intro hu _ _ _
    rw [s2plLoop, if_pos hd]
    exact hu
  | case2 ns delayed locked hd =>
    intro hu _ _ _
    rw [s2plLoop, if_neg hd]
    exact hu
  | case3 ns delayed locked op rest hcond ih =>
    intro hu hlk hrem hdel
    rw [s2plLoop, if_pos hcond]
    have hop := hrem op (List.mem_cons_self _ _)
    refine ih hu hlk (fun x hx => hrem x (List.mem_cons_of_mem _ hx))
      (poolWF_append _ _ hdel ?_)
    intro x hx
    rcases List.mem_singleton.1 hx with rfl
    exact hop
  | case4 ns delayed locked op rest hcond hterm ih =>
    intro hu hlk hrem hdel
    rw [s2plLoop, if_neg hcond, if_pos hterm]
    have hterm' : op.action = "a" ∨ op.action = "c" := by
      simpa using hterm
    have hblock := releaseBlock_ok op.transaction (getLocks locked op.transaction) op
      (getLocks_wf locked op.transaction hlk) hterm' rfl
    have hu' : uAdj (ns ++ (List.map unlock (getLocks locked op.transaction) ++ [op]))
        = true :=
      uAdj_append _ _ hu hblock.2.2.1
    rw [← List.append_assoc] at hu'
    refine ih hu'
      (setLocks_wf _ _ _ hlk (by intro l hl; cases hl))
      (poolWF_append _ _ hdel (fun x hx => hrem x (List.mem_cons_of_mem _ hx)))
      (by intro x hx; cases hx)
  | case5 ns delayed locked op rest hcond hterm hread ih =>
    intro hu hlk hrem hdel
    simp at hread
  | case6 ns delayed locked op rest hcond hterm hread ih =>
    intro hu hlk hrem hdel
    rw [s2plLoop, if_neg hcond, if_neg hterm, if_neg hread]
    have hna : ¬ (op.action = "a" ∨ op.action = "c") := by
      simpa using hterm
    have hrw : op.action = "r" ∨ op.action = "w" := by
      rcases hrem op (List.mem_cons_self _ _) with h | h | h | h
      · exact Or.inl h
      · exact Or.inr h
      · exact absurd (Or.inl h) hna
      · exact absurd (Or.inr h) hna
    have hub : uAdj [lock op, op] = true := by
      rcases hrw with h | h <;> simp [uAdj, lock, h, str_rl, str_wl]
    refine ih (uAdj_append _ _ hu hub)
      (setLocks_wf _ _ _ hlk ?_)
      (poolWF_append _ _ hdel (fun x hx => hrem x (List.mem_cons_of_mem _ hx)))
      (by intro x hx; cases hx)
    intro l hl
    rcases List.mem_append.1 hl with h | h
    · exact getLocks_wf locked op.transaction hlk l h
    · rcases List.mem_singleton.1 h with rfl
      exact ⟨rfl, hrw⟩

/-- **C5 (amended)**: in the output of `s2pl` (success or deadlock), with
`strict = false` every read access is immediately followed by its unlock
event, and every write's unlock event occurs *immediately before* (not at
or after) that transaction's terminate event: it lies in the release block
in which only further unlocks of the same transaction separate it from the
terminate event that closes the block.  With `strict = true` every unlock
event (read or write) lies in such a release block. -/
theorem s2pl_unlock_placement (s : List Op) (h : poolWF s) :
    (readsFollowed (nsOf (s2pl s false)) = true ∧ wuAdj (nsOf (s2pl s false)) = true) ∧
    uAdj (nsOf (s2pl s true)) = true := by
  constructor
  · have := s2plLoop_adjacency_false [] [] [] s rfl rfl rfl
      (by intro p hp; cases hp) h (by intro x hx; cases hx)
    exact ⟨this.1, this.2.2⟩
  · exact s2plLoop_adjacency_true [] [] [] s rfl
      (by intro p hp; cases hp) h (by intro x hx; cases hx)

/-- **C5 (counterexample)**: on `w1(x) c1` with `strict = false` the
output is `wl1(x) w1(x) wu1(x) c1`: the write's unlock event (index 2)
occurs strictly *before* the terminate event (index 3) in the output
order, refuting the claim that it occurs at or after the terminate
event. -/
theorem s2pl_unlock_order_cex :
    s2pl [Op.mk "w" "1" "x", Op.mk "c" "1" ""] false
      = S2plResult.success [Op.mk "wl" "1" "x", Op.mk "w" "1" "x",
          Op.mk "wu" "1" "x", Op.mk "c" "1" ""] ∧
    ¬ (List.indexOf (Op.mk "wu" "1" "x")
          [Op.mk "wl" "1" "x", Op.mk "w" "1" "x", Op.mk "wu" "1" "x", Op.mk "c" "1" ""]
        ≥ List.indexOf (Op.mk "c" "1" "")
          [Op.mk "wl" "1" "x", Op.mk "w" "1" "x", Op.mk "wu" "1" "x", Op.mk "c" "1" ""]) := by
  constructor
  · simp [s2pl, s2plLoop, actions, lockable, getLocks, setLocks, lock, unlock]
  · decide

/-- Witness for `s2pl_unlock_placement` on a concrete schedule. -/
theorem s2pl_unlock_placement_witness :
    poolWF schedDead ∧
    ((readsFollowed (nsOf (s2pl schedDead false)) = true ∧
        wuAdj (nsOf (s2pl schedDead false)) = true) ∧
      uAdj (nsOf (s2pl schedDead true)) = true) :=
  ⟨by intro op hop; fin_cases hop <;> simp [schedDead],
    s2pl_unlock_placement schedDead (by intro op hop; fin_cases hop <;> simp [schedDead])⟩

/-! ## The C2PL simulator (C4) -/

/-- The dict `commits = {op.transaction: op for op in remaining if
op.action in ['a','c']}`: the value for `t` is the last terminating event
of `t` (later comprehension entries overwrite earlier ones); `none` models
a missing key. -/
def termMap (s : List Op) (t : String) : Option Op :=
  ((s.filter (fun op => op.action == "a" || op.action == "c")).filter
    (fun op => op.transaction == t)).getLast?

/-- `remaining = [op for op in remaining if op not in commits.values()]`. -/
def c2plRemaining (s : List Op) : List Op :=
  s.filter (fun op => !(termMap s op.transaction == some op))

/-- Number of transactions present in the pending pool that have not yet
acquired their locks (termination measure component for `c2plLoop`). -/
def poolK (locked : List (String × List Op)) (pool : List Op) : Nat :=
  (((pool.map Op.transaction).toFinset) \ ((locked.map Prod.fst).toFinset)).card

/-- Moving the head of the work queue to the back of the delay queue does
not change the measure component `poolK`. -/
theorem poolK_defer (locked : List (String × List Op)) (op : Op) (rest delayed : List Op) :
    poolK locked (rest ++ (delayed ++ [op])) = poolK locked (op :: (rest ++ delayed)) := by
  unfold poolK
  congr 1
  congr 1
  apply Finset.ext
  intro x
  simp only [List.mem_toFinset, List.mem_map]
  constructor
  · rintro ⟨a, ha, rfl⟩
    refine ⟨a, ?_, rfl⟩
    simp only [List.mem_append, List.mem_cons, List.mem_singleton] at ha ⊢
    tauto
  · rintro ⟨a, ha, rfl⟩
    refine ⟨a, ?_, rfl⟩
    simp only [List.mem_append, List.mem_cons, List.mem_singleton] at ha ⊢
    tauto

/-- Registering a pending transaction's lock set strictly decreases
`poolK`. -/
theorem poolK_acquire (locked : List (String × List Op)) (t : String) (ls : List Op)
    (pool : List Op) (hkey : containsKey locked t = false)
    (hmem : t ∈ pool.map Op.transaction) :
    poolK (locked ++ [(t, ls)]) pool < poolK locked pool := by
  have hnot : t ∉ locked.map Prod.fst := by
    intro hc
    rcases List.mem_map.1 hc with ⟨p, hp, hpt⟩
    have hany : containsKey locked t = true := List.any_eq_true.2 ⟨p, hp, by simp [hpt]⟩
    rw [hany] at hkey
    cases hkey
  have hkeys : (((locked ++ [(t, ls)]).map Prod.fst).toFinset)
      = insert t ((locked.map Prod.fst).toFinset) := by
    apply Finset.ext
    intro x
    simp [or_comm]
  unfold poolK
  rw [hkeys]
  have htA : t ∈ ((pool.map Op.transaction).toFinset \ ((locked.map Prod.fst).toFinset)) := by
    simp only [Finset.mem_sdiff, List.mem_toFinset]
    exact ⟨hmem, hnot⟩
  refine Finset.card_lt_card
    ((Finset.ssubset_iff_of_subset
      (Finset.sdiff_subset_sdiff (le_refl _) (Finset.subset_insert _ _))).2
      ⟨t, htA, by simp⟩)

/-- The `while remaining` loop of `c2pl`.  `none` models the Python
exceptions: `locked[t].pop(0)` on an empty list (`IndexError`) and
`commits[t]` for a transaction without a terminating event (`KeyError`). -/
def c2plLoop (s : List Op) (ns delayed : List Op) (locked : List (String × List Op))
    (remaining : List Op) : Option (List Op) :=
  match remaining with
  | [] => some ns
  | op :: rest =>
    if containsKey locked op.transaction = false then
      let required := actions s op.transaction
      if required.all (fun r => lockable r locked) then
        c2plLoop s (ns ++ required.map lock) delayed
          (setLocks locked op.transaction required) (op :: rest)
      else
        c2plLoop s ns (delayed ++ [op]) locked rest
    else
      match getLocks locked op.transaction with
      | [] => none
      | _ :: ls =>
        if ls.isEmpty then
          match termMap s op.transaction with
          | none => none
          | some tm =>
            c2plLoop s (ns ++ [op, unlock op] ++ [tm]) []
              (setLocks locked op.transaction ls) (delayed ++ rest)
        else
          c2plLoop s (ns ++ [op, unlock op]) []
            (setLocks locked op.transaction ls) (delayed ++ rest)
termination_by (remaining.length + delayed.length,
  poolK locked (remaining ++ delayed) + remaining.length)
decreasing_by
· simp_wf
  rw [Prod.lex_def]
  simp only [List.length_cons, List.length_append, List.length_nil]
  rename_i hkey hall
  have hany : ¬ (locked.any (fun p => p.1 == op.transaction) = true) := by
    intro hc
    rw [show locked.any (fun p => p.1 == op.transaction)
        = containsKey locked op.transaction from rfl, hkey] at hc
    cases hc
  have hset : setLocks locked op.transaction (actions s op.transaction)
      = locked ++ [(op.transaction, actions s op.transaction)] := by
    unfold setLocks
    rw [if_neg hany]
  rw [hset]
  have hlt := poolK_acquire locked op.transaction (actions s op.transaction)
    (op :: (rest ++ delayed)) hkey (List.mem_map.2 ⟨op, by simp, rfl⟩)
  exact Or.inr ⟨trivial, by omega⟩
· simp_wf
  rw [Prod.lex_def]
  simp only [List.length_cons, List.length_append, List.length_nil]
  have heq := poolK_defer locked op rest delayed
  rw [heq]
  omega
· simp_wf
  rw [Prod.lex_def]
  simp only [List.length_cons, List.length_append, List.length_nil]
  omega
· simp_wf
  rw [Prod.lex_def]
  simp only [List.length_cons, List.length_append, List.length_nil]
  omega

/-- `c2pl`: the conservative two-phase-locking simulator. -/
def c2pl (s : List Op) : Option (List Op) :=
  c2plLoop s [] [] [] (c2plRemaining s)

/-- Every access event (`action = "r"` or `"w"`) is immediately followed
by its own unlock event. -/
def accFollowed : List Op → Bool
  | [] => true
  | [op] => !(op.action == "r" || op.action == "w")
  | op :: op2 :: rest =>
    (!(op.action == "r" || op.action == "w") || op2 == unlock op)
      && accFollowed (op2 :: rest)

/-- The last event, if any, is not an access. -/
def accLastOk : List Op → Bool
  | [] => true
  | [op] => !(op.action == "r" || op.action == "w")
  | _ :: op2 :: rest => accLastOk (op2 :: rest)

/-- Well-formed schedule: data-model actions only and at most one
terminating event per transaction. -/
def schedWF (s : List Op) : Prop :=
  poolWF s ∧ ∀ op ∈ s,
    ((s.filter (fun e => e.action == "a" || e.action == "c")).filter
      (fun e => e.transaction == op.transaction)).length ≤ 1

/-- A list without accesses trivially satisfies `accFollowed`. -/
theorem accFollowed_of_no_acc (l : List Op)
    (h : ∀ x ∈ l, ¬(x.action = "r" ∨ x.action = "w")) : accFollowed l = true := by
  induction l with
  | nil => rfl
  | cons op rest ih =>
    have hop := h op (List.mem_cons_self _ _)
    cases rest with
    | nil => simp [accFollowed, not_or.1 hop]
    | cons op2 rest2 =>
      rw [accFollowed]
      simp only [Bool.and_eq_true]
      exact ⟨by simp [not_or.1 hop], ih (fun x hx => h x (List.mem_cons_of_mem _ hx))⟩

/-- A non-empty list of non-accesses satisfies `accLastOk`. -/
theorem accLastOk_of_no_acc (l : List Op)
    (h : ∀ x ∈ l, ¬(x.action = "r" ∨ x.action = "w")) : accLastOk l = true := by
  induction l with
  | nil => rfl
  | cons op rest ih =>
    cases rest with
    | nil => simp [accLastOk, not_or.1 (h op (List.mem_cons_self _ _))]
    | cons op2 rest2 =>
      rw [accLastOk]
      exact ih (fun x hx => h x (List.mem_cons_of_mem _ hx))

/-- `accLastOk` of a concatenation depends only on the non-empty second
part. -/
theorem accLastOk_append (l b : List Op) (hb : b ≠ [])
    (h : accLastOk b = true) : accLastOk (l ++ b) = true := by
  induction l with
  | nil => simpa using h
  | cons op rest ih =>
    cases hr : rest with
    | nil =>
      cases b with
      | nil => exact absurd rfl hb
      | cons b1 brest => simpa [accLastOk] using h
    | cons r2 rrest =>
      rw [List.cons_append, List.cons_append, accLastOk]
      rw [hr, List.cons_append] at ih
      exact ih

/-- `accFollowed` is stable under appending another block, provided the
first part does not end in an access. -/
theorem accFollowed_append (l b : List Op) (hl : accFollowed l = true)
    (hlast : accLastOk l = true) (hb : accFollowed b = true) :
    accFollowed (l ++ b) = true := by
  induction l with
  | nil => simpa using hb
  | cons op rest ih =>
    cases rest with
    | nil =>
      have hop : !(op.action == "r" || op.action == "w") = true := by
        simpa [accLastOk] using hlast
      cases b with
      | nil => simpa using hl
      | cons b1 brest =>
        rw [List.cons_append, List.nil_append, accFollowed]
        simp only [Bool.and_eq_true]
        have h2 : ¬ (op.action = "r" ∨ op.action = "w") := by simpa using hop
        refine ⟨?_, hb⟩
        simp [not_or.1 h2]
    | cons op2 rest2 =>
      rw [accFollowed] at hl
      simp only [Bool.and_eq_true] at hl
      have hlast2 : accLastOk (op2 :: rest2) = true := by
        simpa [accLastOk] using hlast
      have := ih hl.2 hlast2
      rw [List.cons_append, List.cons_append, accFollowed]
      simp only [Bool.and_eq_true]
      rw [List.cons_append] at this
      exact ⟨by simpa using hl.1, this⟩

/-- The dict value is a terminating event of the requested transaction
occurring in the schedule. -/
theorem termMap_spec (s : List Op) (t : String) (tm : Op) (h : termMap s t = some tm) :
    tm ∈ s ∧ tm.transaction = t ∧ (tm.action = "a" ∨ tm.action = "c") := by
  unfold termMap at h
  have hmem := List.mem_of_mem_getLast? h
  rcases List.mem_filter.1 hmem with ⟨hmem2, htr⟩
  rcases List.mem_filter.1 hmem2 with ⟨hmem3, hact⟩
  refine ⟨hmem3, by simpa using htr, ?_⟩
  simpa using hact

/-- In a well-formed schedule, a terminating event is its transaction's
dict entry. -/
theorem termMap_self (s : List Op) (op : Op) (hs : schedWF s) (hop : op ∈ s)
    (ha : op.action = "a" ∨ op.action = "c") : termMap s op.transaction = some op := by
  have huniq := hs.2 op hop
  unfold termMap
  have hmem : op ∈ (s.filter (fun e => e.action == "a" || e.action == "c")).filter
      (fun e => e.transaction == op.transaction) := by
    rw [List.mem_filter, List.mem_filter]
    refine ⟨⟨hop, ?_⟩, by simp⟩
    rcases ha with h | h <;> simp [h]
  cases hl : (s.filter (fun e => e.action == "a" || e.action == "c")).filter
      (fun e => e.transaction == op.transaction) with
  | nil => rw [hl] at hmem; cases hmem
  | cons x xs =>
    cases xs with
    | nil =>
      rw [hl] at hmem
      rcases List.mem_singleton.1 hmem with rfl
      rfl
    | cons y ys =>
      rw [hl] at huniq
      simp at huniq

/-- In a well-formed schedule the filtered work queue of `c2pl` restricted
to one transaction is exactly that transaction's access list. -/
theorem c2plRemaining_filter (s : List Op) (hs : schedWF s) (t : String) :
    (c2plRemaining s).filter (fun e => e.transaction == t) = actions s t := by
  unfold c2plRemaining actions
  rw [List.filter_filter]
  apply List.filter_congr
  intro op hop
  rcases hs.1 op hop with h | h | h | h
  · have : ¬ (termMap s op.transaction == some op) = true := by
      intro hc
      rcases termMap_spec s op.transaction op (by simpa using hc) with ⟨-, -, hac⟩
      rcases hac with h2 | h2 <;> rw [h] at h2 <;> simp at h2
    simp [h, this]
  · have : ¬ (termMap s op.transaction == some op) = true := by
      intro hc
      rcases termMap_spec s op.transaction op (by simpa using hc) with ⟨-, -, hac⟩
      rcases hac with h2 | h2 <;> rw [h] at h2 <;> simp at h2
    simp [h, this]
  · have := termMap_self s op hs hop (Or.inl h)
    simp [h, this]
  · have := termMap_self s op hs hop (Or.inr h)
    simp [h, this]

/-- Every pending operation of `c2pl`'s initial work queue is an access. -/
theorem c2plRemaining_acc (s : List Op) (hs : schedWF s) :
    ∀ op ∈ c2plRemaining s, op.action = "r" ∨ op.action = "w" := by
  intro op hop
  rcases List.mem_filter.1 hop with ⟨hmem, hcond⟩
  rcases hs.1 op hmem with h | h | h | h
  · exact Or.inl h
  · exact Or.inr h
  · have := termMap_self s op hs hmem (Or.inl h)
    simp [this] at hcond
  · have := termMap_self s op hs hmem (Or.inr h)
    simp [this] at hcond

/-- A transaction not in the table has no entry. -/
theorem containsKey_false_find? (locked : List (String × List Op)) (t : String)
    (h : containsKey locked t = false) :
    locked.find? (fun q => q.1 == t) = none := by
  rw [List.find?_eq_none]
  intro p hp hpt
  have : containsKey locked t = true := List.any_eq_true.2 ⟨p, hp, hpt⟩
  rw [this] at h
  cases h

/-- Membership in the table equals existence of an entry. -/
theorem containsKey_eq_find? (locked : List (String × List Op)) (t : String) :
    containsKey locked t = (locked.find? (fun q => q.1 == t)).isSome := by
  induction locked with
  | nil => rfl
  | cons p rest ih =>
    by_cases hpt : (p.1 == t) = true
    · simp [containsKey, List.any_cons, hpt, List.find?_cons_of_pos _ hpt]
    · rw [List.find?_cons_of_neg _ (by simpa using hpt)]
      simp only [containsKey, List.any_cons, hpt, Bool.false_or]
      exact ih

/-- Replacement in the map branch of `setLocks` yields the new entry. -/
theorem find?_mapReplace_self (locked : List (String × List Op)) (t : String) (ls : List Op)
    (h : locked.any (fun p => p.1 == t) = true) :
    (locked.map (fun p => if p.1 == t then (t, ls) else p)).find? (fun q => q.1 == t)
      = some (t, ls) := by
  induction locked with
  | nil => cases h
  | cons p rest ih =>
    by_cases hpt : (p.1 == t) = true
    · simp only [List.map_cons, if_pos hpt]
      rw [List.find?_cons_of_pos _ (by simp)]
    · simp only [List.map_cons, if_neg hpt]
      rw [List.find?_cons_of_neg _ (by simpa using hpt)]
      apply ih
      simpa [List.any_cons, hpt] using h

/-- After `locked[t] = ls`, looking up `t` yields `ls`. -/
theorem find?_setLocks_self (locked : List (String × List Op)) (t : String) (ls : List Op) :
    (setLocks locked t ls).find? (fun q => q.1 == t) = some (t, ls) := by
  unfold setLocks
  by_cases hc : locked.any (fun p => p.1 == t) = true
  · rw [if_pos hc]
    exact find?_mapReplace_self locked t ls hc
  · rw [if_neg hc, List.find?_append,
      containsKey_false_find? locked t (Bool.eq_false_iff.2 hc)]
    simp

/-- After `locked[t] = ls`, lookups of other transactions are unchanged. -/
theorem find?_setLocks_other (locked : List (String × List Op)) (t : String) (ls : List Op)
    (t' : String) (hne : t' ≠ t) :
    (setLocks locked t ls).find? (fun q => q.1 == t')
      = locked.find? (fun q => q.1 == t') := by
  have hne2 : (t == t') = false := beq_eq_false_iff_ne.2 (Ne.symm hne)
  unfold setLocks
  by_cases hc : locked.any (fun p => p.1 == t) = true
  · rw [if_pos hc]
    clear hc
    induction locked with
    | nil => rfl
    | cons p rest ih =>
      by_cases hpt : (p.1 == t) = true
      · have hp1 : p.1 = t := by simpa using hpt
        simp only [List.map_cons, if_pos hpt]
        rw [List.find?_cons, List.find?_cons]
        simp only [hp1, hne2]
        exact ih
      · simp only [List.map_cons, if_neg hpt]
        rw [List.find?_cons, List.find?_cons]
        by_cases hpt2 : (p.1 == t') = true
        · simp only [hpt2]
        · simp only [Bool.eq_false_iff.2 hpt2]
          exact ih
  · rw [if_neg hc, List.find?_append]
    have hsing : List.find? (fun q => q.1 == t') [(t, ls)] = none := by
      simp [hne2]
    rw [hsing]
    cases locked.find? (fun q => q.1 == t') <;> rfl

/-- After `locked[t] = ls`, the table contains `t`. -/
theorem containsKey_setLocks_self (locked : List (String × List Op)) (t : String)
    (ls : List Op) : containsKey (setLocks locked t ls) t = true := by
  rw [containsKey_eq_find?, find?_setLocks_self]
  rfl

/-- After `locked[t] = ls`, membership of other transactions is
unchanged. -/
theorem containsKey_setLocks_other (locked : List (String × List Op)) (t : String)
    (ls : List Op) (t' : String) (hne : t' ≠ t) :
    containsKey (setLocks locked t ls) t' = containsKey locked t' := by
  rw [containsKey_eq_find?, containsKey_eq_find?, find?_setLocks_other locked t ls t' hne]

/-- Elements of a transaction's access list. -/
theorem actions_transaction (s : List Op) (t : String) :
    ∀ o ∈ actions s t, o.transaction = t ∧ (o.action = "r" ∨ o.action = "w") := by
  intro o ho
  rcases List.mem_filter.1 ho with ⟨-, hcond⟩
  simp only [Bool.and_eq_true, Bool.or_eq_true, beq_iff_eq] at hcond
  exact hcond

/-- A block whose events all belong to other transactions contributes
nothing to a transaction's projection. -/
theorem filter_trans_nil (b : List Op) (t : String)
    (h : ∀ x ∈ b, x.transaction ≠ t) : b.filter (fun e => e.transaction == t) = [] := by
  apply List.filter_eq_nil_iff.mpr
  intro x hx
  simp [h x hx]

/-- A block whose events all belong to the transaction is kept whole by
its projection. -/
theorem filter_trans_self (b : List Op) (t : String)
    (h : ∀ x ∈ b, x.transaction = t) : b.filter (fun e => e.transaction == t) = b := by
  apply List.filter_eq_self.mpr
  intro x hx
  simp [h x hx]

/-- Lock events of a transaction's lock block carry that transaction. -/
theorem lockBlock_trans (s : List Op) (t : String) :
    ∀ x ∈ (actions s t).map lock, x.transaction = t := by
  intro x hx
  rcases List.mem_map.1 hx with ⟨o, ho, rfl⟩
  exact (actions_transaction s t o ho).1

/-- Lock events are not accesses. -/
theorem lockBlock_no_acc (s : List Op) (t : String) :
    ∀ x ∈ (actions s t).map lock, ¬(x.action = "r" ∨ x.action = "w") := by
  intro x hx
  rcases List.mem_map.1 hx with ⟨o, ho, rfl⟩
  rcases (actions_transaction s t o ho).2 with h | h <;> simp [lock, h, str_rl, str_wl]

/-- Deferring the head of the work queue permutes the pending pool. -/
theorem pool_defer_perm (op : Op) (rest delayed : List Op) :
    (rest ++ (delayed ++ [op])).Perm ((op :: rest) ++ delayed) := by
  have h1 : rest ++ (delayed ++ [op]) = (rest ++ delayed) ++ [op] := by
    rw [List.append_assoc]
  rw [h1]
  exact List.perm_append_singleton _ _

/-- A true `containsKey` yields the entry found by `find?`. -/
theorem containsKey_some (locked : List (String × List Op)) (t : String)
    (h : ¬ containsKey locked t = false) :
    ∃ p, locked.find? (fun q => q.1 == t) = some p := by
  have h2 : containsKey locked t = true := by
    cases hc : containsKey locked t
    · exact absurd hc h
    · rfl
  rw [containsKey_eq_find?] at h2
  exact Option.isSome_iff_exists.mp h2

/-- Structural invariant of the `c2pl` loop: the produced sequence keeps
accesses adjacent to their unlocks, and each registered transaction's
projection is its lock block followed by executed access/unlock pairs and,
once complete, its terminating event. -/
theorem c2plLoop_inv (s : List Op) (hs : schedWF s) (ns delayed : List Op)
    (locked : List (String × List Op)) (remaining : List Op) :
    accFollowed ns = true → accLastOk ns = true →
    (∀ op ∈ remaining ++ delayed, op.action = "r" ∨ op.action = "w") →
    (∀ t, containsKey locked t = false →
      ((remaining ++ delayed).filter (fun e => e.transaction == t)).Perm (actions s t) ∧
      ns.filter (fun e => e.transaction == t) = []) →
    (∀ t p, locked.find? (fun q => q.1 == t) = some p →
      ∃ eo tailT,
        ns.filter (fun e => e.transaction == t)
          = (actions s t).map lock ++ eo.flatMap (fun o => [o, unlock o]) ++ tailT ∧
        (eo ++ (remaining ++ delayed).filter (fun e => e.transaction == t)).Perm
          (actions s t) ∧
        ((remaining ++ delayed).filter (fun e => e.transaction == t)).length
          = p.2.length ∧
        (tailT = [] ∧ p.2 ≠ [] ∨
         p.2 = [] ∧ ∃ tm, tailT = [tm] ∧ termMap s t = some tm)) →
    ∀ out, c2plLoop s ns delayed locked remaining = some out →
      accFollowed out = true ∧
      ∀ t tm, termMap s t = some tm → tm ∈ out →
        ∃ eo : List Op, eo.Perm (actions s t) ∧
          out.filter (fun e => e.transaction == t)
            = (actions s t).map lock ++ eo.flatMap (fun o => [o, unlock o]) ++ [tm] := by
  induction ns, delayed, locked, remaining using c2plLoop.induct s with
  | case1 ns delayed locked =>
    intro hacc hlast hpool hI1 hI2 out hout
    rw [c2plLoop] at hout
    injection hout with hout2
    subst hout2
    refine ⟨hacc, ?_⟩
    intro t tm htm htmIn
    obtain ⟨hins, htt, hac⟩ := termMap_spec s t tm htm
    have htmT : tm ∈ ns.filter (fun e => e.transaction == t) :=
      List.mem_filter.2 ⟨htmIn, by simp [htt]⟩
    by_cases hck : containsKey locked t = false
    · rw [(hI1 t hck).2] at htmT
      cases htmT
    · obtain ⟨p, hp⟩ := containsKey_some locked t hck
      obtain ⟨eo, tailT, hshape, hperm, hlen, hflavor⟩ := hI2 t p hp
      have heoM : ∀ o ∈ eo, o.transaction = t ∧ (o.action = "r" ∨ o.action = "w") := by
        intro o ho
        exact actions_transaction s t o (hperm.mem_iff.1 (List.mem_append_left _ ho))
      rcases hflavor with ⟨htail, hne2⟩ | ⟨hp2, tm2, htail, htm2⟩
      · exfalso
        rw [hshape, htail, List.append_nil] at htmT
        rcases List.mem_append.1 htmT with h | h
        · rcases List.mem_map.1 h with ⟨o, ho, hlo⟩
          have hta : tm.action = o.action ++ "l" := by rw [← hlo]; rfl
          rcases (actions_transaction s t o ho).2 with h3 | h3 <;>
            rcases hac with h2 | h2 <;>
            rw [h3, h2] at hta <;> simp [str_rl, str_wl] at hta
        · rcases List.mem_flatMap.1 h with ⟨o, ho, hmem2⟩
          obtain ⟨-, hoa⟩ := heoM o ho
          rcases List.mem_cons.1 hmem2 with rfl | hmem3
          · rcases hoa with h3 | h3 <;> rcases hac with h2 | h2 <;>
              rw [h3] at h2 <;> simp at h2
          · rcases List.mem_singleton.1 hmem3 with rfl
            have hta : (unlock o).action = o.action ++ "u" := rfl
            rcases hoa with h3 | h3 <;> rcases hac with h2 | h2 <;>
              rw [h2, h3] at hta <;> simp [str_ru, str_wu] at hta
      · have htmeq : tm2 = tm := by
          rw [htm2] at htm
          exact Option.some.inj htm
        subst htmeq
        refine ⟨eo, ?_, ?_⟩
        · have hlen0 : ((([] : List Op) ++ delayed).filter
              (fun e => e.transaction == t)).length = 0 := by
            rw [hlen, hp2]
            rfl
          have hnil := List.length_eq_zero.mp hlen0
          have hperm2 := hperm
          rw [hnil, List.append_nil] at hperm2
          exact hperm2
        · rw [hshape, htail]
  | case2 ns delayed locked op rest hck required hall ih =>
    intro hacc hlast hpool hI1 hI2 out hout
    have hreq : required = actions s op.transaction := rfl
    rw [hreq] at hall ih
    rw [c2plLoop] at hout
    simp only [hck, reduceIte, hall] at hout
    obtain ⟨hpermT, hnsT⟩ := hI1 op.transaction hck
    have hopMem : op ∈ ((op :: rest) ++ delayed).filter
        (fun e => e.transaction == op.transaction) :=
      List.mem_filter.2 ⟨by simp, by simp⟩
    have hreq_ne : actions s op.transaction ≠ [] := by
      intro h0
      have hx := hpermT
      rw [h0, List.perm_nil] at hx
      rw [hx] at hopMem
      cases hopMem
    have hblockacc := lockBlock_no_acc s op.transaction
    have hacc2 : accFollowed (ns ++ (actions s op.transaction).map lock) = true :=
      accFollowed_append _ _ hacc hlast (accFollowed_of_no_acc _ hblockacc)
    have hlast2 : accLastOk (ns ++ (actions s op.transaction).map lock) = true := by
      refine accLastOk_append _ _ ?_ (accLastOk_of_no_acc _ hblockacc)
      intro hc
      exact hreq_ne (by simpa using hc)
    refine ih hacc2 hlast2 hpool ?_ ?_ out hout
    · intro t' hck'
      by_cases ht' : t' = op.transaction
      · subst ht'
        rw [containsKey_setLocks_self] at hck'
        cases hck'
      · rw [containsKey_setLocks_other _ _ _ _ ht'] at hck'
        obtain ⟨hp', hn'⟩ := hI1 t' hck'
        refine ⟨hp', ?_⟩
        rw [List.filter_append, hn', List.nil_append]
        apply filter_trans_nil
        intro x hx
        rw [lockBlock_trans s op.transaction x hx]
        exact fun hc => ht' hc.symm
    · intro t' p' hp'
      by_cases ht' : t' = op.transaction
      · subst ht'
        rw [find?_setLocks_self] at hp'
        injection hp' with hpe
        subst hpe
        refine ⟨[], [], ?_, ?_, ?_, ?_⟩
        · rw [List.filter_append, hnsT, List.nil_append,
            filter_trans_self _ _ (lockBlock_trans s op.transaction)]
          simp
        · simpa using hpermT
        · rw [hpermT.length_eq]
        · exact Or.inl ⟨rfl, hreq_ne⟩
      · rw [find?_setLocks_other _ _ _ _ ht'] at hp'
        obtain ⟨eo, tailT, hshape, hperm2, hlen2, hflav⟩ := hI2 t' p' hp'
        refine ⟨eo, tailT, ?_, hperm2, hlen2, hflav⟩
        rw [List.filter_append, hshape, filter_trans_nil
          ((actions s op.transaction).map lock) t' ?_, List.append_nil]
        intro x hx
        rw [lockBlock_trans s op.transaction x hx]
        exact fun hc => ht' hc.symm
  | case3 ns delayed locked op rest hck required hnall ih =>
    intro hacc hlast hpool hI1 hI2 out hout
    have hreq : required = actions s op.transaction := rfl
    rw [hreq] at hnall
    rw [c2plLoop] at hout
    have hfalse : ((actions s op.transaction).all fun r => lockable r locked) = false :=
      Bool.eq_false_iff.2 hnall
    simp only [hck, reduceIte, hfalse, Bool.false_eq_true] at hout
    have hpv := pool_defer_perm op rest delayed
    refine ih hacc hlast ?_ ?_ ?_ out hout
    · intro x hx
      exact hpool x (hpv.subset hx)
    · intro t' hck'
      obtain ⟨hp', hn'⟩ := hI1 t' hck'
      exact ⟨(hpv.filter _).trans hp', hn'⟩
    · intro t' p' hp'
      obtain ⟨eo, tailT, hshape, hperm2, hlen2, hflav⟩ := hI2 t' p' hp'
      refine ⟨eo, tailT, hshape, ?_, ?_, hflav⟩
      · exact (List.Perm.append_left eo (hpv.filter _)).trans hperm2
      · rw [(hpv.filter _).length_eq]
        exact hlen2
  | case4 ns delayed locked op rest hckn hgl =>
    intro _ _ _ _ _ out hout
    rw [c2plLoop] at hout
    have hck2 : containsKey locked op.transaction = true := by
      cases hc : containsKey locked op.transaction
      · exact absurd hc hckn
      · rfl
    simp only [hck2, Bool.true_eq_false, reduceIte, hgl] at hout
    exact Option.noConfusion hout
  | case5 ns delayed locked op rest hckn op1 rest1 hgl hempty htm =>
    intro _ _ _ _ _ out hout
    rw [c2plLoop] at hout
    have hck2 : containsKey locked op.transaction = true := by
      cases hc : containsKey locked op.transaction
      · exact absurd hc hckn
      · rfl
    simp only [hck2, Bool.true_eq_false, reduceIte, hgl, hempty, htm] at hout
    exact Option.noConfusion hout
  | case6 ns delayed locked op rest hckn op1 rest1 hgl hempty tm htm ih =>
    intro hacc hlast hpool hI1 hI2 out hout
    rw [c2plLoop] at hout
    have hck2 : containsKey locked op.transaction = true := by
      cases hc : containsKey locked op.transaction
      · exact absurd hc hckn
      · rfl
    simp only [hck2, Bool.true_eq_false, reduceIte, hgl, hempty, htm] at hout
    obtain ⟨p, hp⟩ := containsKey_some locked op.transaction hckn
    have hp2 : p.2 = op1 :: rest1 := by
      unfold getLocks at hgl
      rw [hp] at hgl
      exact hgl
    obtain ⟨eo, tailT, hshape, hperm2, hlen2, hflav⟩ := hI2 op.transaction p hp
    have htail : tailT = [] := by
      rcases hflav with ⟨h1, -⟩ | ⟨h1, -⟩
      · exact h1
      · rw [hp2] at h1
        cases h1
    have hrest1 : rest1 = [] := List.isEmpty_iff.mp hempty
    have hopAcc := hpool op (by simp)
    obtain ⟨htmIn, htmT, htmAC⟩ := termMap_spec s op.transaction tm htm
    have hpoolDecomp : ((op :: rest) ++ delayed).filter
        (fun e => e.transaction == op.transaction)
        = op :: (rest ++ delayed).filter (fun e => e.transaction == op.transaction) := by
      rw [List.cons_append, List.filter_cons_of_pos (by simp)]
    have hpoolPerm : (((delayed ++ rest) ++ ([] : List Op))).Perm (rest ++ delayed) := by
      rw [List.append_nil]
      exact List.perm_append_comm
    have hblockAcc : accFollowed [op, unlock op, tm] = true := by
      rcases hopAcc with h | h <;> rcases htmAC with h2 | h2 <;>
        simp [accFollowed, unlock, h, h2, str_ru, str_wu]
    have hblockLast : accLastOk [op, unlock op, tm] = true := by
      rcases htmAC with h2 | h2 <;> simp [accLastOk, h2]
    have heq3 : ns ++ [op, unlock op] ++ [tm] = ns ++ [op, unlock op, tm] := by simp
    have hblockT : ∀ x ∈ [op, unlock op, tm], x.transaction = op.transaction := by
      intro x hx
      simp only [List.mem_cons, List.mem_singleton, List.not_mem_nil, or_false] at hx
      rcases hx with rfl | rfl | rfl
      · rfl
      · rfl
      · exact htmT
    have hacc2 : accFollowed (ns ++ [op, unlock op] ++ [tm]) = true := by
      rw [heq3]
      exact accFollowed_append _ _ hacc hlast hblockAcc
    have hlast2 : accLastOk (ns ++ [op, unlock op] ++ [tm]) = true := by
      rw [heq3]
      exact accLastOk_append _ _ (by simp) hblockLast
    refine ih hacc2 hlast2 ?_ ?_ ?_ out hout
    · intro x hx
      apply hpool x
      have hx2 : x ∈ delayed ++ rest := by simpa using hx
      rcases List.mem_append.1 hx2 with h | h
      · simp [h]
      · simp [h]
    · intro t' hck'
      by_cases ht' : t' = op.transaction
      · subst ht'
        rw [containsKey_setLocks_self] at hck'
        cases hck'
      · rw [containsKey_setLocks_other _ _ _ _ ht'] at hck'
        obtain ⟨hp', hn'⟩ := hI1 t' hck'
        have hOld : ((op :: rest) ++ delayed).filter (fun e => e.transaction == t')
            = (rest ++ delayed).filter (fun e => e.transaction == t') := by
          rw [List.cons_append, List.filter_cons_of_neg (by
            simp only [beq_eq_false_iff_ne, ne_eq, Bool.not_eq_true]
            exact fun hc => ht' hc.symm)]
        rw [hOld] at hp'
        constructor
        · exact (hpoolPerm.filter _).trans hp'
        · rw [heq3, List.filter_append, hn', List.nil_append]
          apply filter_trans_nil
          intro x hx
          rw [hblockT x hx]
          exact fun hc => ht' hc.symm
    · intro t' p' hp'
      by_cases ht' : t' = op.transaction
      · subst ht'
        rw [find?_setLocks_self] at hp'
        injection hp' with hpe
        subst hpe
        refine ⟨eo ++ [op], [tm], ?_, ?_, ?_, ?_⟩
        · rw [heq3, List.filter_append, hshape, htail, List.append_nil,
            filter_trans_self _ _ hblockT, List.flatMap_append]
          simp [List.append_assoc, unlock]
        · have hl1 := hpoolPerm.filter (fun e => e.transaction == op.transaction)
          have h2 : ((eo ++ [op]) ++ (rest ++ delayed).filter
              (fun e => e.transaction == op.transaction))
              = eo ++ ((op :: rest) ++ delayed).filter
                  (fun e => e.transaction == op.transaction) := by
            rw [hpoolDecomp, List.append_assoc]
            rfl
          refine (List.Perm.append_left (eo ++ [op]) hl1).trans ?_
          rw [h2]
          exact hperm2
        · rw [(hpoolPerm.filter _).length_eq]
          have hx := hlen2
          rw [hpoolDecomp, hp2] at hx
          simpa using hx
        · exact Or.inr ⟨hrest1, tm, rfl, htm⟩
      · rw [find?_setLocks_other _ _ _ _ ht'] at hp'
        obtain ⟨eo2, tailT2, hshape2, hperm3, hlen3, hflav2⟩ := hI2 t' p' hp'
        have hOld : ((op :: rest) ++ delayed).filter (fun e => e.transaction == t')
            = (rest ++ delayed).filter (fun e => e.transaction == t') := by
          rw [List.cons_append, List.filter_cons_of_neg (by
            simp only [beq_eq_false_iff_ne, ne_eq, Bool.not_eq_true]
            exact fun hc => ht' hc.symm)]
        rw [hOld] at hperm3 hlen3
        refine ⟨eo2, tailT2, ?_, ?_, ?_, hflav2⟩
        · rw [heq3, List.filter_append, filter_trans_nil [op, unlock op, tm] t' ?_,
            List.append_nil]
          · exact hshape2
          · intro x hx
            rw [hblockT x hx]
            exact fun hc => ht' hc.symm
        · exact (List.Perm.append_left eo2 (hpoolPerm.filter _)).trans hperm3
        · rw [(hpoolPerm.filter _).length_eq]
          exact hlen3
  | case7 ns delayed locked op rest hckn op1 rest1 hgl hempty ih =>
    intro hacc hlast hpool hI1 hI2 out hout
    rw [c2plLoop] at hout
    have hck2 : containsKey locked op.transaction = true := by
      cases hc : containsKey locked op.transaction
      · exact absurd hc hckn
      · rfl
    have hemptyF : rest1.isEmpty = false := Bool.eq_false_iff.2 hempty
    simp only [hck2, Bool.true_eq_false, reduceIte, hgl, hemptyF] at hout
    obtain ⟨p, hp⟩ := containsKey_some locked op.transaction hckn
    have hp2 : p.2 = op1 :: rest1 := by
      unfold getLocks at hgl
      rw [hp] at hgl
      exact hgl
    obtain ⟨eo, tailT, hshape, hperm2, hlen2, hflav⟩ := hI2 op.transaction p hp
    have htail : tailT = [] := by
      rcases hflav with ⟨h1, -⟩ | ⟨h1, -⟩
      · exact h1
      · rw [hp2] at h1
        cases h1
    have hrest1 : rest1 ≠ [] := by
      intro h0
      rw [h0] at hemptyF
      cases hemptyF
    have hopAcc := hpool op (by simp)
    have hpoolDecomp : ((op :: rest) ++ delayed).filter
        (fun e => e.transaction == op.transaction)
        = op :: (rest ++ delayed).filter (fun e => e.transaction == op.transaction) := by
      rw [List.cons_append, List.filter_cons_of_pos (by simp)]
    have hpoolPerm : (((delayed ++ rest) ++ ([] : List Op))).Perm (rest ++ delayed) := by
      rw [List.append_nil]
      exact List.perm_append_comm
    have hblockAcc : accFollowed [op, unlock op] = true := by
      rcases hopAcc with h | h <;>
        simp [accFollowed, unlock, h, str_ru, str_wu]
    have hblockLast : accLastOk [op, unlock op] = true := by
      rcases hopAcc with h | h <;> simp [accLastOk, unlock, h, str_ru, str_wu]
    have hblockT : ∀ x ∈ [op, unlock op], x.transaction = op.transaction := by
      intro x hx
      simp only [List.mem_cons, List.mem_singleton, List.not_mem_nil, or_false] at hx
      rcases hx with rfl | rfl
      · rfl
      · rfl
    have hacc2 : accFollowed (ns ++ [op, unlock op]) = true :=
      accFollowed_append _ _ hacc hlast hblockAcc
    have hlast2 : accLastOk (ns ++ [op, unlock op]) = true :=
      accLastOk_append _ _ (by simp) hblockLast
    refine ih hacc2 hlast2 ?_ ?_ ?_ out hout
    · intro x hx
      apply hpool x
      have hx2 : x ∈ delayed ++ rest := by simpa using hx
      rcases List.mem_append.1 hx2 with h | h
      · simp [h]
      · simp [h]
    · intro t' hck'
      by_cases ht' : t' = op.transaction
      · subst ht'
        rw [containsKey_setLocks_self] at hck'
        cases hck'
      · rw [containsKey_setLocks_other _ _ _ _ ht'] at hck'
        obtain ⟨hp', hn'⟩ := hI1 t' hck'
        have hOld : ((op :: rest) ++ delayed).filter (fun e => e.transaction == t')
            = (rest ++ delayed).filter (fun e => e.transaction == t') := by
          rw [List.cons_append, List.filter_cons_of_neg (by
            simp only [beq_eq_false_iff_ne, ne_eq, Bool.not_eq_true]
            exact fun hc => ht' hc.symm)]
        rw [hOld] at hp'
        constructor
        · exact (hpoolPerm.filter _).trans hp'
        · rw [List.filter_append, hn', List.nil_append]
          apply filter_trans_nil
          intro x hx
          rw [hblockT x hx]
          exact fun hc => ht' hc.symm
    · intro t' p' hp'
      by_cases ht' : t' = op.transaction
      · subst ht'
        rw [find?_setLocks_self] at hp'
        injection hp' with hpe
        subst hpe
        refine ⟨eo ++ [op], [], ?_, ?_, ?_, ?_⟩
        · rw [List.filter_append, hshape, htail, List.append_nil,
            filter_trans_self _ _ hblockT, List.flatMap_append]
          simp [List.append_assoc, unlock]
        · have hl1 := hpoolPerm.filter (fun e => e.transaction == op.transaction)
          have h2 : ((eo ++ [op]) ++ (rest ++ delayed).filter
              (fun e => e.transaction == op.transaction))
              = eo ++ ((op :: rest) ++ delayed).filter
                  (fun e => e.transaction == op.transaction) := by
            rw [hpoolDecomp, List.append_assoc]
            rfl
          refine (List.Perm.append_left (eo ++ [op]) hl1).trans ?_
          rw [h2]
          exact hperm2
        · rw [(hpoolPerm.filter _).length_eq]
          have hx := hlen2
          rw [hpoolDecomp, hp2] at hx
          simpa using hx
        · exact Or.inl ⟨rfl, hrest1⟩
      · rw [find?_setLocks_other _ _ _ _ ht'] at hp'
        obtain ⟨eo2, tailT2, hshape2, hperm3, hlen3, hflav2⟩ := hI2 t' p' hp'
        have hOld : ((op :: rest) ++ delayed).filter (fun e => e.transaction == t')
            = (rest ++ delayed).filter (fun e => e.transaction == t') := by
          rw [List.cons_append, List.filter_cons_of_neg (by
            simp only [beq_eq_false_iff_ne, ne_eq, Bool.not_eq_true]
            exact fun hc => ht' hc.symm)]
        rw [hOld] at hperm3 hlen3
        refine ⟨eo2, tailT2, ?_, ?_, ?_, hflav2⟩
        · rw [List.filter_append, filter_trans_nil [op, unlock op] t' ?_,
            List.append_nil]
          · exact hshape2
          · intro x hx
            rw [hblockT x hx]
            exact fun hc => ht' hc.symm
        · exact (List.Perm.append_left eo2 (hpoolPerm.filter _)).trans hperm3
        · rw [(hpoolPerm.filter _).length_eq]
          exact hlen3

/-- **C4** (corrected). Structure of the `c2pl` output: every access event in
the output is immediately followed by its own unlock event, and for every
transaction whose terminating event appears in the output, that transaction's
projection of the output is its complete upfront lock block (exactly one lock
event per original access, all emitted before any of the transaction's
accesses), followed by the access/unlock pairs (a permutation of the original
accesses, each immediately followed by exactly one unlock event), and it ends
with the transaction's original terminating event.  The claim's stronger
"each access is immediately *preceded* by its lock event" is refuted by
`c2pl_lock_adjacency_cex`. -/
theorem c2pl_output_structure (s : List Op) (hs : schedWF s)
    (out : List Op) (hout : c2pl s = some out) :
    accFollowed out = true ∧
    ∀ t tm, termMap s t = some tm → tm ∈ out →
      ∃ eo : List Op, eo.Perm (actions s t) ∧
        out.filter (fun e => e.transaction == t)
          = (actions s t).map lock ++ eo.flatMap (fun o => [o, unlock o]) ++ [tm] := by
  have hout' : c2plLoop s [] [] [] (c2plRemaining s) = some out := hout
  refine c2plLoop_inv s hs [] [] [] (c2plRemaining s) rfl rfl ?_ ?_ ?_ out hout'
  · intro op hop
    exact c2plRemaining_acc s hs op (by simpa using hop)
  · intro t _
    constructor
    · rw [List.append_nil, c2plRemaining_filter s hs t]
    · rfl
  · intro t p hp
    simp at hp

/-- **C4** counterexample: on r1(x) w1(y) c1 the event immediately preceding
the access r1(x) in the `c2pl` output is wl1(y) — the lock of the *other*
access — not rl1(x): `c2pl` emits the whole lock block upfront, so an access
is in general not immediately preceded by its own lock event. -/
theorem c2pl_lock_adjacency_cex :
    c2pl [Op.mk "r" "1" "x", Op.mk "w" "1" "y", Op.mk "c" "1" ""]
      = some [Op.mk "rl" "1" "x", Op.mk "wl" "1" "y", Op.mk "r" "1" "x",
              Op.mk "ru" "1" "x", Op.mk "w" "1" "y", Op.mk "wu" "1" "y",
              Op.mk "c" "1" ""] ∧
    [Op.mk "rl" "1" "x", Op.mk "wl" "1" "y", Op.mk "r" "1" "x",
     Op.mk "ru" "1" "x", Op.mk "w" "1" "y", Op.mk "wu" "1" "y",
     Op.mk "c" "1" ""].get ⟨2, by decide⟩ = Op.mk "r" "1" "x" ∧
    [Op.mk "rl" "1" "x", Op.mk "wl" "1" "y", Op.mk "r" "1" "x",
     Op.mk "ru" "1" "x", Op.mk "w" "1" "y", Op.mk "wu" "1" "y",
     Op.mk "c" "1" ""].get ⟨1, by decide⟩ ≠ lock (Op.mk "r" "1" "x") := by
  refine ⟨?_, by decide, by decide⟩
  simp [c2pl, c2plRemaining, termMap, c2plLoop, containsKey, actions, lockable,
    getLocks, setLocks, lock, unlock]

/-- Witness for `c2pl_output_structure` on the schedule r1(x) w1(y) c1. -/
theorem c2pl_output_structure_witness :
    schedWF [Op.mk "r" "1" "x", Op.mk "w" "1" "y", Op.mk "c" "1" ""] ∧
    (accFollowed [Op.mk "rl" "1" "x", Op.mk "wl" "1" "y", Op.mk "r" "1" "x",
        Op.mk "ru" "1" "x", Op.mk "w" "1" "y", Op.mk "wu" "1" "y",
        Op.mk "c" "1" ""] = true ∧
      ∀ t tm, termMap [Op.mk "r" "1" "x", Op.mk "w" "1" "y", Op.mk "c" "1" ""] t
          = some tm →
        tm ∈ [Op.mk "rl" "1" "x", Op.mk "wl" "1" "y", Op.mk "r" "1" "x",
          Op.mk "ru" "1" "x", Op.mk "w" "1" "y", Op.mk "wu" "1" "y",
          Op.mk "c" "1" ""] →
        ∃ eo : List Op,
          eo.Perm (actions [Op.mk "r" "1" "x", Op.mk "w" "1" "y",
            Op.mk "c" "1" ""] t) ∧
          ([Op.mk "rl" "1" "x", Op.mk "wl" "1" "y", Op.mk "r" "1" "x",
            Op.mk "ru" "1" "x", Op.mk "w" "1" "y", Op.mk "wu" "1" "y",
            Op.mk "c" "1" ""].filter (fun e => e.transaction == t))
            = (actions [Op.mk "r" "1" "x", Op.mk "w" "1" "y",
                Op.mk "c" "1" ""] t).map lock
              ++ eo.flatMap (fun o => [o, unlock o]) ++ [tm]) :=
  ⟨by constructor <;> intro op hop <;> fin_cases hop <;> decide,
    c2pl_output_structure [Op.mk "r" "1" "x", Op.mk "w" "1" "y", Op.mk "c" "1" ""]
      (by constructor <;> intro op hop <;> fin_cases hop <;> decide) _
      (by simp [c2pl, c2plRemaining, termMap, c2plLoop, containsKey, actions,
        lockable, getLocks, setLocks, lock, unlock])⟩
